import Mathlib

/-!
Verification of the `automata` service orchestrator.

This file shallowly embeds the Python sources of the repository
(`automata/service_manager.py`, `automata/service.py`, `automata/install.py`)
as executable Lean definitions and proves or refutes the frozen claims about
them.  Machine integers play no role here; the data is strings, lists and
dictionaries, which are rendered as `String`, `List` and association lists.
Python exceptions are rendered as `Except` values; recursion that Python
performs on the call stack is rendered with an explicit fuel parameter whose
exhaustion is a distinguished error `outOfFuel` that the theorems prove
unreachable where Python terminates.
-/

namespace Automata

/-- A service as the ordering and validation code of `ServiceManager` reads
it: `_validate_dependencies`, `_get_start_order`, `_get_stop_order` and
their subset variants access only `service.name` and `service.depends_on`.
The remaining descriptor fields (port, version, logs dir, installer,
configs, start command) never influence those algorithms and are modelled
separately where a claim needs them. -/
structure Service where
  name : String
  dependsOn : List String
deriving Repr, DecidableEq

/-- Errors raised by `ServiceManager` methods.  Python raises `ValueError`
with a formatted message; the model keeps the data that the message is
formatted from.  `outOfFuel` is a modelling artefact standing for
non-termination of the embedded recursion: it is proved unreachable in the
situations where the Python code terminates. -/
inductive Err where
  /-- `ValueError(f"Service '{name}' not found")` in `get_service`. -/
  | serviceNotFound (name : String)
  /-- `ValueError(f"Invalid dependency '{dep}' for service '{svc}'")`. -/
  | invalidDependency (dep svc : String)
  /-- `ValueError(f"Circular dependency detected: {' -> '.join(path)}")`;
  the constructor records the joined list `path + [service.name]`. -/
  | circularDependency (path : List String)
  /-- Fuel exhaustion of the embedding (no Python counterpart). -/
  | outOfFuel
deriving Repr, DecidableEq

/-- First service with the given name, if any (the lookup both
`get_service` and `next(s for s in self.services if s.name == dependency)`
perform). -/
def svcOf (svcs : List Service) (n : String) : Option Service :=
  svcs.find? (fun s => s.name == n)

/-- `ServiceManager.get_service`: linear scan for the first service with the
requested name, `ValueError` if none matches. -/
def getService (svcs : List Service) (n : String) : Except Err Service :=
  match svcs.find? (fun s => s.name == n) with
  | some s => .ok s
  | none => .error (.serviceNotFound n)

/-- Every declared dependency name resolves to some service of the set
(the invariant `_validate_dependencies` establishes before any order is
computed). -/
def Closed (svcs : List Service) : Prop :=
  ∀ s ∈ svcs, ∀ d ∈ s.dependsOn, ∃ t ∈ svcs, t.name = d

/-- `rank` strictly decreases along every dependency edge.  Existence of
such a function is the standard characterisation of acyclicity of the
dependency graph. -/
def DecAlong (svcs : List Service) (rank : String → Nat) : Prop :=
  ∀ s ∈ svcs, ∀ d ∈ s.dependsOn, rank d < rank s.name

/-! ## `_get_start_order` (full set, ascending) -/

/-- The mutable state of `_get_start_order`: the accumulating grouped
`order`, the `started_services` set (a list used only through membership,
insertion-order irrelevant), and the `no_deps_services` list. -/
structure StartState where
  order : List (List String)
  started : List String
  noDeps : List String
deriving Repr, DecidableEq

/-- The `for dep in service.depends_on` loop of `add_service`
(`if dep not in started_services: <process dep with f>`), parametrised by
the body `f` that fetches the dependency's service and recurses. -/
def addDepsGo (f : String → StartState → Except Err StartState) :
    List String → StartState → Except Err StartState
  | [], st => .ok st
  | dep :: rest, st =>
    if dep ∈ st.started then addDepsGo f rest st
    else do
      let st' ← f dep st
      addDepsGo f rest st'

/-- `add_service` of `_get_start_order`.  A service already in
`started_services` is skipped; a dependency-free service is appended (once)
to `no_deps_services`; otherwise its dependencies are processed first and
the service is appended as a singleton group. -/
def addService : Nat → List Service → Service → StartState → Except Err StartState
  | 0, _, _, _ => .error .outOfFuel
  | fuel + 1, svcs, s, st =>
    if s.name ∈ st.started then .ok st
    else if s.dependsOn = [] then
      .ok { st with noDeps := if s.name ∈ st.noDeps then st.noDeps else st.noDeps ++ [s.name] }
    else do
      let st' ← addDepsGo (fun dep acc => do
          let ds ← getService svcs dep
          addService fuel svcs ds acc) s.dependsOn st
      if s.name ∈ st'.started then .ok st'
      else .ok { st' with order := st'.order ++ [[s.name]], started := st'.started ++ [s.name] }

/-- The top-level `for service in self.services: add_service(service)`. -/
def addAllStart (fuel : Nat) (svcs : List Service) : List Service → StartState → Except Err StartState
  | [], st => .ok st
  | s :: rest, st => do
    let st' ← addService fuel svcs s st
    addAllStart fuel svcs rest st'

/-- `_get_start_order` with an explicit fuel bound for the recursion of
`add_service`. -/
def getStartOrderF (fuel : Nat) (svcs : List Service) : Except Err (List (List String)) := do
  let st ← addAllStart fuel svcs svcs ⟨[], [], []⟩
  if st.noDeps = [] then .ok st.order else .ok (st.noDeps :: st.order)

/-- `_get_start_order`.  With fuel `svcs.length + 1` the recursion never
exhausts on an acyclic set (proved below), so this is the function the
Python code computes whenever it terminates. -/
def getStartOrder (svcs : List Service) : Except Err (List (List String)) :=
  getStartOrderF (svcs.length + 1) svcs

/-! ## `_get_stop_order` (full set, descending) -/

/-- The dependents of a name, in the order `_get_stop_order` inserts them
into `dependents_map[dep]`: the outer loop runs over `self.services` in
list order, so insertion order is list order.  (Python iterates a `set`
in an unspecified order; in every concrete input below the sets have at
most one element, so this determinisation is exact there, and the general
theorems proved about the stop orders depend only on membership.) -/
def dependentsOf (svcs : List Service) (n : String) : List String :=
  (svcs.filter (fun s => n ∈ s.dependsOn)).map (·.name)

/-- The mutable state of the stop-order computations. -/
structure StopState where
  order : List (List String)
  stopped : List String
deriving Repr, DecidableEq

/-- `order[-1].append(name)`: extend the last group in place (used only
when `order` is nonempty; on an empty order it opens a fresh group, a case
the callers never reach). -/
def appendLast (n : String) : List (List String) → List (List String)
  | [] => [[n]]
  | [g] => [g ++ [n]]
  | g :: rest => g :: appendLast n rest

/-- The `for dependent in dependents` loop shared by both stop-order
computations, parametrised by the per-dependent body `f`. -/
def stopDepsGo (f : String → StopState → Except Err StopState) :
    List String → StopState → Except Err StopState
  | [], st => .ok st
  | w :: rest, st => do
    let st' ← f w st
    stopDepsGo f rest st'

/-- `add_service` of `_get_stop_order_for_specific`: recurse into all
dependents (fetching each with `get_service` before the membership check),
then append the service — as a fresh singleton group when it has
dependents, otherwise merged into the last group when one exists. -/
def addStop : Nat → List Service → Service → StopState → Except Err StopState
  | 0, _, _, _ => .error .outOfFuel
  | fuel + 1, svcs, s, st =>
    if s.name ∈ st.stopped then .ok st
    else do
      let deps := dependentsOf svcs s.name
      let st' ← stopDepsGo (fun w acc => do
          let ws ← getService svcs w
          if ws.name ∈ acc.stopped then pure acc else addStop fuel svcs ws acc) deps st
      if s.name ∈ st'.stopped then .ok st'
      else if deps ≠ [] then
        .ok { order := st'.order ++ [[s.name]], stopped := st'.stopped ++ [s.name] }
      else if st'.order ≠ [] then
        .ok { order := appendLast s.name st'.order, stopped := st'.stopped ++ [s.name] }
      else
        .ok { order := [[s.name]], stopped := st'.stopped ++ [s.name] }

/-- `_get_stop_order_for_specific` with explicit fuel: process exactly the
requested services (each pulls in its transitive dependents). -/
def getStopOrderSpecificF (fuel : Nat) (svcs : List Service) :
    List Service → StopState → Except Err (List (List String))
  | [], st => .ok st.order
  | s :: rest, st => do
    let st' ← addStop fuel svcs s st
    getStopOrderSpecificF fuel svcs rest st'

/-- `_get_stop_order_for_specific`. -/
def getStopOrderSpecific (svcs : List Service) (specific : List Service) :
    Except Err (List (List String)) :=
  getStopOrderSpecificF (svcs.length + 1) svcs specific ⟨[], []⟩

/-- `add_service` of the full `_get_stop_order`; it differs from the subset
variant in checking `dependent not in stopped_services` before calling
`get_service`, and in the final placement conditional (`order[-1].append`
whenever the service has no dependents and a group already exists). -/
def addStopFull : Nat → List Service → Service → StopState → Except Err StopState
  | 0, _, _, _ => .error .outOfFuel
  | fuel + 1, svcs, s, st =>
    if s.name ∈ st.stopped then .ok st
    else do
      let deps := dependentsOf svcs s.name
      let st' ← stopDepsGo (fun w acc =>
          if w ∈ acc.stopped then pure acc
          else do
            let ws ← getService svcs w
            addStopFull fuel svcs ws acc) deps st
      if s.name ∈ st'.stopped then .ok st'
      else if st'.order ≠ [] ∧ deps = [] then
        .ok { order := appendLast s.name st'.order, stopped := st'.stopped ++ [s.name] }
      else
        .ok { order := st'.order ++ [[s.name]], stopped := st'.stopped ++ [s.name] }

/-- Top-level loop of `_get_stop_order`: every service is processed. -/
def addAllStop (fuel : Nat) (svcs : List Service) : List Service → StopState → Except Err StopState
  | [], st => .ok st
  | s :: rest, st => do
    let st' ← addStopFull fuel svcs s st
    addAllStop fuel svcs rest st'

/-- `_get_stop_order` with explicit fuel. -/
def getStopOrderF (fuel : Nat) (svcs : List Service) : Except Err (List (List String)) := do
  let st ← addAllStop fuel svcs svcs ⟨[], []⟩
  .ok st.order

/-- `_get_stop_order`. -/
def getStopOrder (svcs : List Service) : Except Err (List (List String)) :=
  getStopOrderF (svcs.length + 1) svcs

/-! Concrete service sets used by the examples of the specification. -/

/-- Example A of the specification: `db`, `cache`, `api` (depends on both),
`worker` (depends on `api`), in that descriptor order. -/
def exampleA : List Service :=
  [⟨"db", []⟩, ⟨"cache", []⟩, ⟨"api", ["db", "cache"]⟩, ⟨"worker", ["api"]⟩]

example : getStartOrder exampleA = .ok [["db", "cache"], ["api"], ["worker"]] := rfl

example : getStopOrder exampleA = .ok [["worker"], ["api"], ["db"], ["cache"]] := rfl

example :
    getStopOrderSpecific exampleA [⟨"db", []⟩] = .ok [["worker"], ["api"], ["db"]] := rfl

/-! ## General-purpose helper lemmas -/

/-- Decompose a successful `Except` bind. -/
theorem bind_ok {α β : Type} {x : Except Err α} {f : α → Except Err β} {b : β}
    (h : (x >>= f) = .ok b) : ∃ a, x = .ok a ∧ f a = .ok b := by
  cases x with
  | error e => simp [Bind.bind, Except.bind] at h
  | ok a => exact ⟨a, rfl, by simpa [Bind.bind, Except.bind] using h⟩

theorem getService_ok {svcs : List Service} {n : String} {s : Service}
    (h : getService svcs n = .ok s) : s ∈ svcs ∧ s.name = n := by
  unfold getService at h
  cases hf : svcs.find? (fun t => t.name == n) with
  | none => rw [hf] at h; cases h
  | some t =>
    rw [hf] at h
    cases h
    have hm := List.mem_of_find?_eq_some hf
    have hp := List.find?_some hf
    simp only [beq_iff_eq] at hp
    exact ⟨hm, hp⟩

theorem svcOf_eq_some {svcs : List Service} {n : String} {s : Service}
    (h : svcOf svcs n = some s) : s ∈ svcs ∧ s.name = n := by
  unfold svcOf at h
  exact ⟨List.mem_of_find?_eq_some h, by simpa using List.find?_some h⟩

theorem getService_eq_svcOf (svcs : List Service) (n : String) :
    getService svcs n = (match svcOf svcs n with
      | some s => .ok s
      | none => .error (.serviceNotFound n)) := rfl

/-- A successful `get_service` lookup is exactly a successful `svcOf`
lookup. -/
theorem getService_ok_svcOf {svcs : List Service} {n : String} {s : Service}
    (h : getService svcs n = .ok s) : svcOf svcs n = some s := by
  unfold getService at h
  unfold svcOf
  cases hf : svcs.find? (fun t => t.name == n) with
  | none =>
    simp only [hf] at h
    exact Except.noConfusion h
  | some t =>
    simp only [hf, Except.ok.injEq] at h
    rw [h]

/-- With pairwise-distinct service names, looking up a member's own name
finds that member. -/
theorem svcOf_self {svcs : List Service} (hnd : (svcs.map Service.name).Nodup)
    {s : Service} (hs : s ∈ svcs) : svcOf svcs s.name = some s := by
  induction svcs with
  | nil => cases hs
  | cons t rest ih =>
    simp only [List.map_cons, List.nodup_cons] at hnd
    rcases List.mem_cons.mp hs with h | h
    · subst h
      simp [svcOf, List.find?]
    · by_cases he : t.name = s.name
      · exact absurd (he ▸ List.mem_map.2 ⟨s, h, rfl⟩) hnd.1
      · have := ih hnd.2 h
        simpa [svcOf, List.find?, beq_eq_false_iff_ne.mpr (fun hc => he hc)] using this

/-- With distinct names the service found for a name is unique. -/
theorem svcOf_unique {svcs : List Service} (hnd : (svcs.map Service.name).Nodup)
    {s t : Service} (hs : s ∈ svcs) (h : svcOf svcs s.name = some t) : t = s := by
  rw [svcOf_self hnd hs] at h
  exact (Option.some.inj h).symm

theorem getService_closed {svcs : List Service} {n : String}
    (h : ∃ t ∈ svcs, t.name = n) : ∃ s, getService svcs n = .ok s ∧ s ∈ svcs ∧ s.name = n := by
  have hs : (svcs.find? (fun t => t.name == n)).isSome := by
    apply List.find?_isSome.2
    rcases h with ⟨t, ht, hn⟩
    exact ⟨t, ht, by simp [hn]⟩
  rcases Option.isSome_iff_exists.mp hs with ⟨s, hfind⟩
  refine ⟨s, ?_, List.mem_of_find?_eq_some hfind, by simpa using List.find?_some hfind⟩
  unfold getService
  rw [hfind]

/-- Counting: if `p` implies `q` on `l`, `p`'s filter is no longer than
`q`'s. -/
theorem length_filter_le_length_filter {α : Type} (l : List α) (p q : α → Bool)
    (hpq : ∀ x ∈ l, p x = true → q x = true) :
    (l.filter p).length ≤ (l.filter q).length := by
  induction l with
  | nil => simp
  | cons a rest ih =>
    have ih' := ih (fun x hx => hpq x (List.mem_cons_of_mem _ hx))
    by_cases hp : p a = true
    · have hq := hpq a (List.mem_cons_self a rest) hp
      simp only [List.filter_cons, hp, hq, if_true, List.length_cons]
      omega
    · have hp' : p a = false := by simpa using hp
      by_cases hq : q a = true
      · simp [List.filter_cons, hp', hq]
        omega
      · have hq' : q a = false := by simpa using hq
        simp [List.filter_cons, hp', hq']
        exact ih'

/-- Strict counting: if `p` implies `q` on `l` and some member satisfies `q`
but not `p`, then `p`'s filter is strictly shorter than `q`'s. -/
theorem length_filter_lt_length_filter {α : Type} (l : List α) (p q : α → Bool)
    (hpq : ∀ x ∈ l, p x = true → q x = true)
    (x₀ : α) (hx : x₀ ∈ l) (hq : q x₀ = true) (hp : p x₀ = false) :
    (l.filter p).length < (l.filter q).length := by
  induction l with
  | nil => cases hx
  | cons a rest ih =>
    have hle : (rest.filter p).length ≤ (rest.filter q).length :=
      length_filter_le_length_filter rest p q (fun x hx' => hpq x (List.mem_cons_of_mem _ hx'))
    rcases List.mem_cons.mp hx with rfl | hx'
    · simp [List.filter_cons, hp, hq]
      omega
    · have ih' := ih (fun x hxm hpx => hpq x (List.mem_cons_of_mem _ hxm) hpx) hx'
      by_cases hpa : p a = true
      · have hqa := hpq a (List.mem_cons_self a rest) hpa
        simp only [List.filter_cons, hpa, hqa, if_true, List.length_cons]
        omega
      · have hpa' : p a = false := by simpa using hpa
        by_cases hqa : q a = true
        · simp [List.filter_cons, hpa', hqa]
          omega
        · have hqa' : q a = false := by simpa using hqa
          simp [List.filter_cons, hpa', hqa']
          exact ih'

/-- In a flattened-nodup list of groups, an element determines its group
index uniquely. -/
theorem flatten_nodup_index_unique {α : Type} {L : List (List α)}
    (h : L.flatten.Nodup) {i j : Nat} (hi : i < L.length) (hj : j < L.length)
    {a : α} (ha : a ∈ L[i]) (hb : a ∈ L[j]) : i = j := by
  rcases List.nodup_flatten.mp h with ⟨-, hpw⟩
  rcases Nat.lt_trichotomy i j with hlt | heq | hgt
  · exact absurd hb ((List.pairwise_iff_getElem.mp hpw i j hi hj hlt) ha)
  · exact heq
  · exact absurd ha ((List.pairwise_iff_getElem.mp hpw j i hj hi hgt) hb)

/-- From any rank function strictly decreasing along dependency edges, one
bounded by the number of services can be constructed. -/
theorem exists_bounded_rank (svcs : List Service) (hcl : Closed svcs)
    (rank : String → Nat) (hdec : DecAlong svcs rank) :
    ∃ rk : String → Nat, DecAlong svcs rk ∧ ∀ s ∈ svcs, rk s.name < svcs.length := by
  refine ⟨fun x => (svcs.filter (fun t => decide (rank t.name < rank x))).length, ?_, ?_⟩
  · intro s hs d hd
    obtain ⟨t₀, ht₀, hname⟩ := hcl s hs d hd
    apply length_filter_lt_length_filter svcs _ _ ?_ t₀ ht₀ ?_ ?_
    · intro x _ hpx
      simp only [decide_eq_true_eq] at hpx ⊢
      exact lt_trans hpx (hdec s hs d hd)
    · simp only [decide_eq_true_eq, hname]
      exact hdec s hs d hd
    · simp [hname]
  · intro s hs
    have := length_filter_lt_length_filter svcs
      (fun t => decide (rank t.name < rank s.name)) (fun _ => true)
      (fun x _ _ => rfl) s hs rfl (by simp)
    simpa [List.filter_true] using this

/-! ## Invariants of `_get_start_order` -/

/-- The invariant the state of `_get_start_order` maintains: `order` holds
singleton groups of services that have dependencies, `started_services`
coincides with the names placed in `order`, `no_deps_services` holds only
dependency-free services, and every placed service has each dependency
either in a strictly earlier group or in `no_deps_services`. -/
structure SInv (svcs : List Service) (st : StartState) : Prop where
  groups : ∀ g ∈ st.order, ∃ n s, g = [n] ∧ svcOf svcs n = some s ∧ s.dependsOn ≠ []
  startedIff : ∀ n, n ∈ st.started ↔ n ∈ st.order.flatten
  flatNodup : st.order.flatten.Nodup
  noDepsGood : ∀ n ∈ st.noDeps, ∃ s, svcOf svcs n = some s ∧ s.dependsOn = []
  noDepsNodup : st.noDeps.Nodup
  ordering : ∀ i, ∀ hi : i < st.order.length, ∀ n ∈ st.order[i], ∀ s,
    svcOf svcs n = some s → ∀ d ∈ s.dependsOn,
    (∃ j, ∃ hj : j < st.order.length, j < i ∧ d ∈ st.order[j]) ∨ d ∈ st.noDeps

/-- Monotone growth of the start-order state: groups are only appended,
membership of the two name collections only grows. -/
def SGrow (st st' : StartState) : Prop :=
  (∃ ext, st'.order = st.order ++ ext) ∧
  (∀ n ∈ st.started, n ∈ st'.started) ∧
  (∀ n ∈ st.noDeps, n ∈ st'.noDeps)

theorem SGrow.rfl {st : StartState} : SGrow st st :=
  ⟨⟨[], (List.append_nil _).symm⟩, fun _ h => h, fun _ h => h⟩

theorem SGrow.comp {s t u : StartState} (h₁ : SGrow s t) (h₂ : SGrow t u) : SGrow s u := by
  obtain ⟨⟨e₁, he₁⟩, hs₁, hn₁⟩ := h₁
  obtain ⟨⟨e₂, he₂⟩, hs₂, hn₂⟩ := h₂
  exact ⟨⟨e₁ ++ e₂, by rw [he₂, he₁, List.append_assoc]⟩,
    fun n h => hs₂ n (hs₁ n h), fun n h => hn₂ n (hn₁ n h)⟩

/-- What the per-dependency body of `add_service` must guarantee. -/
def StartBodyPres (svcs : List Service) (f : String → StartState → Except Err StartState) : Prop :=
  ∀ d st st', f d st = .ok st' → SInv svcs st →
    SInv svcs st' ∧ SGrow st st' ∧ (d ∈ st'.started ∨ d ∈ st'.noDeps)

/-- The dependency loop preserves the invariant and leaves every processed
dependency placed (either started or recorded as dependency-free). -/
theorem addDepsGo_pres {svcs : List Service} {f : String → StartState → Except Err StartState}
    (hf : StartBodyPres svcs f) :
    ∀ deps st st', addDepsGo f deps st = .ok st' → SInv svcs st →
      SInv svcs st' ∧ SGrow st st' ∧ ∀ d ∈ deps, d ∈ st'.started ∨ d ∈ st'.noDeps := by
  intro deps
  induction deps with
  | nil =>
    intro st st' h hinv
    simp only [addDepsGo] at h
    cases h
    exact ⟨hinv, SGrow.rfl, by simp⟩
  | cons dep rest ih =>
    intro st st' h hinv
    simp only [addDepsGo] at h
    by_cases hmem : dep ∈ st.started
    · rw [if_pos hmem] at h
      obtain ⟨hinv', hgrow, hrest⟩ := ih st st' h hinv
      refine ⟨hinv', hgrow, ?_⟩
      intro d hd
      rcases List.mem_cons.mp hd with rfl | hd'
      · exact Or.inl (hgrow.2.1 d hmem)
      · exact hrest d hd'
    · rw [if_neg hmem] at h
      obtain ⟨st₁, h₁, h₂⟩ := bind_ok h
      obtain ⟨hinv₁, hgrow₁, hplaced⟩ := hf dep st st₁ h₁ hinv
      obtain ⟨hinv', hgrow', hrest⟩ := ih st₁ st' h₂ hinv₁
      refine ⟨hinv', hgrow₁.comp hgrow', ?_⟩
      intro d hd
      rcases List.mem_cons.mp hd with rfl | hd'
      · rcases hplaced with h | h
        · exact Or.inl (hgrow'.2.1 d h)
        · exact Or.inr (hgrow'.2.2 d h)
      · exact hrest d hd'

/-- `add_service` of `_get_start_order` preserves the invariant and places
the requested service. -/
theorem addService_pres {svcs : List Service} (hnd : (svcs.map Service.name).Nodup) :
    ∀ fuel, ∀ s ∈ svcs, ∀ st st', addService fuel svcs s st = .ok st' → SInv svcs st →
      SInv svcs st' ∧ SGrow st st' ∧ (s.name ∈ st'.started ∨ s.name ∈ st'.noDeps) := by
  intro fuel
  induction fuel with
  | zero =>
    intro s _ st st' h
    simp only [addService] at h
    cases h
  | succ fuel ih =>
    intro s hs st st' h hinv
    simp only [addService] at h
    by_cases hmem : s.name ∈ st.started
    · rw [if_pos hmem] at h
      cases h
      exact ⟨hinv, SGrow.rfl, Or.inl hmem⟩
    · rw [if_neg hmem] at h
      by_cases hdeps : s.dependsOn = []
      · rw [if_pos hdeps] at h
        cases h
        by_cases hnd' : s.name ∈ st.noDeps
        · rw [if_pos hnd']
          exact ⟨hinv, SGrow.rfl, Or.inr hnd'⟩
        · rw [if_neg hnd']
          refine ⟨⟨hinv.groups, hinv.startedIff, hinv.flatNodup, ?_, ?_, ?_⟩, ?_, ?_⟩
          · intro n hn
            rcases List.mem_append.mp hn with h' | h'
            · exact hinv.noDepsGood n h'
            · rcases List.mem_singleton.mp h' with rfl
              exact ⟨s, svcOf_self hnd hs, hdeps⟩
          · exact List.Nodup.append hinv.noDepsNodup (List.nodup_singleton _)
              (by simpa [List.disjoint_singleton] using hnd')
          · intro i hi n hn t hsv d hd
            rcases hinv.ordering i hi n hn t hsv d hd with h' | h'
            · exact Or.inl h'
            · exact Or.inr (List.mem_append.mpr (Or.inl h'))
          · exact ⟨⟨[], (List.append_nil _).symm⟩, fun _ h' => h',
              fun n h' => List.mem_append.mpr (Or.inl h')⟩
          · exact Or.inr (List.mem_append.mpr (Or.inr (List.mem_singleton.mpr rfl)))
      · rw [if_neg hdeps] at h
        obtain ⟨st₁, h₁, h₂⟩ := bind_ok h
        have hbody : StartBodyPres svcs (fun dep acc => do
            let ds ← getService svcs dep
            addService fuel svcs ds acc) := by
          intro d st₀ st₀' hcall hinv₀
          obtain ⟨ds, hget, hrun⟩ := bind_ok hcall
          obtain ⟨hdm, hdn⟩ := getService_ok hget
          obtain ⟨hinv₀', hgrow₀, hplace⟩ := ih ds hdm st₀ st₀' hrun hinv₀
          exact ⟨hinv₀', hgrow₀, hdn ▸ hplace⟩
        obtain ⟨hinv₁, hgrow₁, hcover⟩ := addDepsGo_pres hbody s.dependsOn st st₁ h₁ hinv
        by_cases hmem₁ : s.name ∈ st₁.started
        · rw [if_pos hmem₁] at h₂
          cases h₂
          exact ⟨hinv₁, hgrow₁, Or.inl hmem₁⟩
        · rw [if_neg hmem₁] at h₂
          cases h₂
          have hnotflat : s.name ∉ st₁.order.flatten := fun hx =>
            hmem₁ ((hinv₁.startedIff s.name).mpr hx)
          have hsOf : svcOf svcs s.name = some s := svcOf_self hnd hs
          refine ⟨⟨?_, ?_, ?_, hinv₁.noDepsGood, hinv₁.noDepsNodup, ?_⟩, ?_, ?_⟩
          · intro g hg
            rcases List.mem_append.mp hg with h' | h'
            · exact hinv₁.groups g h'
            · rcases List.mem_singleton.mp h' with rfl
              exact ⟨s.name, s, rfl, hsOf, hdeps⟩
          · intro n
            simp [List.mem_append, hinv₁.startedIff n]
          · rw [List.flatten_append]
            simp only [List.flatten_cons, List.flatten_nil, List.append_nil]
            exact (List.nodup_append).mpr ⟨hinv₁.flatNodup, List.nodup_singleton _,
              by simpa [List.disjoint_singleton] using hnotflat⟩
          · intro i hi n hn t hsv d hd
            have hlen : (st₁.order ++ [[s.name]]).length = st₁.order.length + 1 := by simp
            by_cases hi' : i < st₁.order.length
            · have hget : (st₁.order ++ [[s.name]])[i] = st₁.order[i] :=
                List.getElem_append_left hi'
              rw [hget] at hn
              rcases hinv₁.ordering i hi' n hn t hsv d hd with ⟨j, hj, hji, hdj⟩ | h'
              · refine Or.inl ⟨j, by omega, hji, ?_⟩
                rw [List.getElem_append_left hj]
                exact hdj
              · exact Or.inr h'
            · have hieq : i = st₁.order.length := by
                rw [hlen] at hi
                omega
              subst hieq
              have hget : (st₁.order ++ [[s.name]])[st₁.order.length] = [s.name] :=
                List.getElem_concat_length _ _ _ rfl _
              rw [hget] at hn
              rcases List.mem_singleton.mp hn with rfl
              have : t = s := by
                rw [hsOf] at hsv
                exact (Option.some.inj hsv).symm
              subst this
              rcases hcover d hd with h' | h'
              · have hdflat : d ∈ st₁.order.flatten := (hinv₁.startedIff d).mp h'
                obtain ⟨g, hg, hdg⟩ := List.mem_flatten.mp hdflat
                obtain ⟨j, hj, hgj⟩ := List.mem_iff_getElem.mp hg
                refine Or.inl ⟨j, by omega, hj, ?_⟩
                rw [List.getElem_append_left hj, hgj]
                exact hdg
              · exact Or.inr h'
          · exact hgrow₁.comp ⟨⟨[[s.name]], rfl⟩,
              fun n h' => List.mem_append.mpr (Or.inl h'), fun _ h' => h'⟩
          · exact Or.inl (List.mem_append.mpr (Or.inr (List.mem_singleton.mpr rfl)))

/-- The dependency loop succeeds when its body does on all its entries. -/
theorem addDepsGo_ok {f : String → StartState → Except Err StartState}
    {P : String → Prop} (hf : ∀ d st, P d → ∃ st', f d st = .ok st') :
    ∀ deps st, (∀ d ∈ deps, P d) → ∃ st', addDepsGo f deps st = .ok st' := by
  intro deps
  induction deps with
  | nil => intro st _; exact ⟨st, rfl⟩
  | cons dep rest ih =>
    intro st hP
    simp only [addDepsGo]
    by_cases hmem : dep ∈ st.started
    · rw [if_pos hmem]
      exact ih st (fun d hd => hP d (List.mem_cons_of_mem _ hd))
    · rw [if_neg hmem]
      obtain ⟨st₁, h₁⟩ := hf dep st (hP dep (List.mem_cons_self dep rest))
      obtain ⟨st', h'⟩ := ih st₁ (fun d hd => hP d (List.mem_cons_of_mem _ hd))
      exact ⟨st', by rw [h₁]; simpa [Bind.bind, Except.bind] using h'⟩

/-- With fuel exceeding the rank of the requested service, `add_service`
completes (acyclicity expressed through the rank function bounds the
recursion depth). -/
theorem addService_ok {svcs : List Service} (hcl : Closed svcs)
    {rank : String → Nat} (hdec : DecAlong svcs rank) :
    ∀ fuel, ∀ s ∈ svcs, ∀ st, rank s.name < fuel →
      ∃ st', addService fuel svcs s st = .ok st' := by
  intro fuel
  induction fuel with
  | zero => intro s _ st h; omega
  | succ fuel ih =>
    intro s hs st hr
    simp only [addService]
    by_cases hmem : s.name ∈ st.started
    · rw [if_pos hmem]
      exact ⟨st, rfl⟩
    · rw [if_neg hmem]
      by_cases hdeps : s.dependsOn = []
      · rw [if_pos hdeps]
        exact ⟨_, rfl⟩
      · rw [if_neg hdeps]
        have hbody : ∀ d st₀, ((∃ t ∈ svcs, t.name = d) ∧ rank d < fuel) →
            ∃ st₁, (do
              let ds ← getService svcs d
              addService fuel svcs ds st₀ : Except Err StartState) = .ok st₁ := by
          intro d st₀ hPd
          obtain ⟨hex, hrd⟩ := hPd
          obtain ⟨ds, hget, hdm, hdn⟩ := getService_closed hex
          obtain ⟨st₁, h₁⟩ := ih ds hdm st₀ (by rw [hdn]; exact hrd)
          exact ⟨st₁, by rw [hget]; simpa [Bind.bind, Except.bind] using h₁⟩
        obtain ⟨st₁, h₁⟩ := addDepsGo_ok hbody s.dependsOn st (fun d hd =>
          ⟨hcl s hs d hd, lt_of_lt_of_le (hdec s hs d hd) (Nat.lt_succ_iff.mp hr)⟩)
        rw [h₁]
        by_cases hm : s.name ∈ st₁.started
        · exact ⟨st₁, by simp [Bind.bind, Except.bind, hm]⟩
        · refine ⟨{ st₁ with
              order := st₁.order ++ [[s.name]]
              started := st₁.started ++ [s.name] }, ?_⟩
          simp [Bind.bind, Except.bind, hm]

/-- Preservation along the top-level loop over all services. -/
theorem addAllStart_pres {svcs : List Service} (hnd : (svcs.map Service.name).Nodup) :
    ∀ l, (∀ s ∈ l, s ∈ svcs) → ∀ fuel st st',
      addAllStart fuel svcs l st = .ok st' → SInv svcs st →
      SInv svcs st' ∧ SGrow st st' ∧ ∀ s ∈ l, s.name ∈ st'.started ∨ s.name ∈ st'.noDeps := by
  intro l
  induction l with
  | nil =>
    intro _ fuel st st' h hinv
    simp only [addAllStart] at h
    cases h
    exact ⟨hinv, SGrow.rfl, by simp⟩
  | cons s rest ih =>
    intro hsub fuel st st' h hinv
    simp only [addAllStart] at h
    obtain ⟨st₁, h₁, h₂⟩ := bind_ok h
    obtain ⟨hinv₁, hgrow₁, hplace⟩ :=
      addService_pres hnd fuel s (hsub s (List.mem_cons_self s rest)) st st₁ h₁ hinv
    obtain ⟨hinv', hgrow', hrest⟩ :=
      ih (fun t ht => hsub t (List.mem_cons_of_mem _ ht)) fuel st₁ st' h₂ hinv₁
    refine ⟨hinv', hgrow₁.comp hgrow', ?_⟩
    intro t ht
    rcases List.mem_cons.mp ht with rfl | ht'
    · rcases hplace with h' | h'
      · exact Or.inl (hgrow'.2.1 _ h')
      · exact Or.inr (hgrow'.2.2 _ h')
    · exact hrest t ht'

/-- Success of the top-level loop. -/
theorem addAllStart_ok {svcs : List Service} (hcl : Closed svcs)
    {rank : String → Nat} (hdec : DecAlong svcs rank) :
    ∀ l, (∀ s ∈ l, s ∈ svcs) → ∀ fuel st, (∀ s ∈ l, rank s.name < fuel) →
      ∃ st', addAllStart fuel svcs l st = .ok st' := by
  intro l
  induction l with
  | nil => intro _ fuel st _; exact ⟨st, rfl⟩
  | cons s rest ih =>
    intro hsub fuel st hfuel
    obtain ⟨st₁, h₁⟩ := addService_ok hcl hdec fuel s (hsub s (List.mem_cons_self s rest)) st
      (hfuel s (List.mem_cons_self s rest))
    obtain ⟨st', h'⟩ := ih (fun t ht => hsub t (List.mem_cons_of_mem _ ht)) fuel st₁
      (fun t ht => hfuel t (List.mem_cons_of_mem _ ht))
    exact ⟨st', by simp only [addAllStart]; rw [h₁]; simpa [Bind.bind, Except.bind] using h'⟩

/-- Recover a group index from flattened membership. -/
theorem flatten_mem_index {α : Type} {L : List (List α)} {a : α} (h : a ∈ L.flatten) :
    ∃ i, ∃ hi : i < L.length, a ∈ L[i] := by
  obtain ⟨g, hg, hag⟩ := List.mem_flatten.mp h
  obtain ⟨i, hi, hgi⟩ := List.mem_iff_getElem.mp hg
  exact ⟨i, hi, hgi ▸ hag⟩

/-- Master theorem about `_get_start_order` on a validated acyclic set:
it succeeds, covers every service, places each service strictly after all
of its dependencies (which also makes every group an independent set),
puts all dependency-free services in the first group, keeps every later
group a singleton, and never lists a name twice. -/
theorem startOrder_main (svcs : List Service)
    (hnd : (svcs.map Service.name).Nodup) (hcl : Closed svcs)
    (rank : String → Nat) (hdec : DecAlong svcs rank) :
    ∃ ord, getStartOrder svcs = .ok ord ∧
      (∀ s ∈ svcs, ∃ i, ∃ hi : i < ord.length, s.name ∈ ord[i]) ∧
      (∀ i j, ∀ hi : i < ord.length, ∀ hj : j < ord.length, ∀ u su d,
        u ∈ ord[i] → svcOf svcs u = some su → d ∈ su.dependsOn → d ∈ ord[j] → j < i) ∧
      (∀ s ∈ svcs, s.dependsOn = [] → ∃ h0 : 0 < ord.length, s.name ∈ ord[0]) ∧
      (∀ i, ∀ hi : i < ord.length, 1 ≤ i → ∃ n, ord[i] = [n]) ∧
      ord.flatten.Nodup := by
  obtain ⟨rk, hdec', hbound⟩ := exists_bounded_rank svcs hcl rank hdec
  obtain ⟨stF, hrun⟩ := addAllStart_ok hcl hdec' svcs (fun _ h => h) (svcs.length + 1)
    ⟨[], [], []⟩ (fun s hs => lt_trans (hbound s hs) (Nat.lt_succ_self _))
  have hinv0 : SInv svcs ⟨[], [], []⟩ := by
    refine ⟨?_, ?_, ?_, ?_, ?_, ?_⟩ <;> simp
  obtain ⟨hinv, -, hcover⟩ :=
    addAllStart_pres hnd svcs (fun _ h => h) (svcs.length + 1) ⟨[], [], []⟩ stF hrun hinv0
  -- the two collections are disjoint: a name cannot be both dependency-free
  -- (in `noDeps`) and dependency-having (in a group of `order`)
  have hdisj : ∀ n, n ∈ stF.noDeps → n ∈ stF.order.flatten → False := by
    intro n h1 h2
    obtain ⟨s, hsv, hse⟩ := hinv.noDepsGood n h1
    obtain ⟨g, hg, hng⟩ := List.mem_flatten.mp h2
    obtain ⟨m, t, hge, htv, hte⟩ := hinv.groups g hg
    rw [hge] at hng
    rcases List.mem_singleton.mp hng with rfl
    rw [hsv] at htv
    exact hte ((Option.some.inj htv) ▸ hse)
  by_cases hnul : stF.noDeps = []
  · refine ⟨stF.order, ?_, ?_, ?_, ?_, ?_, hinv.flatNodup⟩
    · unfold getStartOrder getStartOrderF
      rw [hrun]
      simp [Bind.bind, Except.bind, hnul]
    · intro s hs
      rcases hcover s hs with h | h
      · exact flatten_mem_index ((hinv.startedIff s.name).mp h)
      · rw [hnul] at h
        cases h
    · intro i j hi hj u su d hu hsv hd hdj
      rcases hinv.ordering i hi u hu su hsv d hd with ⟨j', hj', hji, hdj'⟩ | h'
      · have := flatten_nodup_index_unique hinv.flatNodup hj hj' hdj hdj'
        omega
      · rw [hnul] at h'
        cases h'
    · intro s hs hse
      rcases hcover s hs with h | h
      · exfalso
        obtain ⟨g, hg, hng⟩ := List.mem_flatten.mp ((hinv.startedIff s.name).mp h)
        obtain ⟨m, t, hge, htv, hte⟩ := hinv.groups g hg
        rw [hge] at hng
        rcases List.mem_singleton.mp hng with rfl
        have := svcOf_self hnd hs
        rw [this] at htv
        exact hte ((Option.some.inj htv) ▸ hse)
      · rw [hnul] at h
        cases h
    · intro i hi _
      obtain ⟨m, t, hge, -, -⟩ := hinv.groups stF.order[i] (List.getElem_mem hi)
      exact ⟨m, hge⟩
  · refine ⟨stF.noDeps :: stF.order, ?_, ?_, ?_, ?_, ?_, ?_⟩
    · unfold getStartOrder getStartOrderF
      rw [hrun]
      simp [Bind.bind, Except.bind, hnul]
    · intro s hs
      rcases hcover s hs with h | h
      · obtain ⟨i, hi, hmem⟩ := flatten_mem_index ((hinv.startedIff s.name).mp h)
        exact ⟨i + 1, by simpa using Nat.succ_lt_succ hi, by simpa using hmem⟩
      · exact ⟨0, by simp, by simpa using h⟩
    · intro i j hi hj u su d hu hsv hd hdj
      have hflat : (stF.noDeps :: stF.order).flatten.Nodup := by
        simp only [List.flatten_cons]
        exact (List.nodup_append).mpr ⟨hinv.noDepsNodup, hinv.flatNodup,
          fun a ha hb => hdisj a ha hb⟩
      match i, hi with
      | 0, hi =>
        simp only [List.getElem_cons_zero] at hu
        obtain ⟨s', hsv', hse'⟩ := hinv.noDepsGood u hu
        rw [hsv'] at hsv
        have heq : s' = su := Option.some.inj hsv
        rw [← heq, hse'] at hd
        cases hd
      | i + 1, hi =>
        simp only [List.getElem_cons_succ] at hu
        have hi' : i < stF.order.length := by simpa using Nat.lt_of_succ_lt_succ hi
        rcases hinv.ordering i hi' u hu su hsv d hd with ⟨j', hj', hji, hdj'⟩ | h'
        · have hj'' : j' + 1 < (stF.noDeps :: stF.order).length := by
            simpa using Nat.succ_lt_succ hj'
          have : d ∈ (stF.noDeps :: stF.order)[j' + 1] := by simpa using hdj'
          have := flatten_nodup_index_unique hflat hj hj'' hdj this
          omega
        · have hj0 : (0 : Nat) < (stF.noDeps :: stF.order).length := by simp
          have : d ∈ (stF.noDeps :: stF.order)[0] := by simpa using h'
          have := flatten_nodup_index_unique hflat hj hj0 hdj this
          omega
    · intro s hs hse
      rcases hcover s hs with h | h
      · exfalso
        obtain ⟨g, hg, hng⟩ := List.mem_flatten.mp ((hinv.startedIff s.name).mp h)
        obtain ⟨m, t, hge, htv, hte⟩ := hinv.groups g hg
        rw [hge] at hng
        rcases List.mem_singleton.mp hng with rfl
        have := svcOf_self hnd hs
        rw [this] at htv
        exact hte ((Option.some.inj htv) ▸ hse)
      · exact ⟨by simp, by simpa using h⟩
    · intro i hi h1
      match i, hi with
      | i + 1, hi =>
        have hi' : i < stF.order.length := by simpa using Nat.lt_of_succ_lt_succ hi
        obtain ⟨m, t, hge, -, -⟩ := hinv.groups stF.order[i] (List.getElem_mem hi')
        exact ⟨m, by simpa using hge⟩
    · simp only [List.flatten_cons]
      exact (List.nodup_append).mpr ⟨hinv.noDepsNodup, hinv.flatNodup,
        fun a ha hb => hdisj a ha hb⟩

/-- C1: for every acyclic dependency set (expressed by a rank function
strictly decreasing along dependency edges) with resolving, duplicate-free
names, `_get_start_order` succeeds, places every service in some group, and
whenever a placed service `u` depends on a placed name `d`, `d`'s group
index is strictly smaller than `u`'s.  Instantiating `i = j` shows no
dependency edge can connect two members of one group, so every group is an
independent set. -/
theorem startOrder_respects_dependencies (svcs : List Service)
    (hnd : (svcs.map Service.name).Nodup) (hcl : Closed svcs)
    (rank : String → Nat) (hdec : DecAlong svcs rank) :
    ∃ ord, getStartOrder svcs = .ok ord ∧
      (∀ s ∈ svcs, ∃ i, ∃ hi : i < ord.length, s.name ∈ ord[i]) ∧
      (∀ i j, ∀ hi : i < ord.length, ∀ hj : j < ord.length, ∀ u su d,
        u ∈ ord[i] → svcOf svcs u = some su → d ∈ su.dependsOn → d ∈ ord[j] → j < i) := by
  obtain ⟨ord, hok, hmem, hord, -, -, -⟩ := startOrder_main svcs hnd hcl rank hdec
  exact ⟨ord, hok, hmem, hord⟩

/-- Rank function witnessing acyclicity of Example A. -/
def exampleARank : String → Nat :=
  fun n => if n = "worker" then 2 else if n = "api" then 1 else 0

/-- Witness for `startOrder_respects_dependencies` at Example A of the
specification. -/
theorem startOrder_respects_dependencies_witness :
    ∃ ord, getStartOrder exampleA = .ok ord ∧
      (∀ s ∈ exampleA, ∃ i, ∃ hi : i < ord.length, s.name ∈ ord[i]) ∧
      (∀ i j, ∀ hi : i < ord.length, ∀ hj : j < ord.length, ∀ u su d,
        u ∈ ord[i] → svcOf exampleA u = some su → d ∈ su.dependsOn → d ∈ ord[j] → j < i) :=
  startOrder_respects_dependencies exampleA (by decide) (by unfold Closed; decide)
    exampleARank (by unfold DecAlong; decide)

/-- Acyclic four-service set with two independent chains `b → a` and
`d → c`: a levelling algorithm would place `b` and `d` in one group. -/
def twoChains : List Service :=
  [⟨"a", []⟩, ⟨"b", ["a"]⟩, ⟨"c", []⟩, ⟨"d", ["c"]⟩]

/-- C2, counterexample: on `twoChains` the computed ascending order is
`[[a, c], [b], [d]]`, so service `d` sits in group 2 although
`1 + max(group of its only dependency c) = 1 + 0 = 1`: group indices are
not `1 + max over dependencies`, because every dependency-having service
receives its own singleton group. -/
theorem startOrder_not_levelled :
    getStartOrder twoChains = .ok [["a", "c"], ["b"], ["d"]] ∧
    svcOf twoChains "d" = some ⟨"d", ["c"]⟩ ∧
    "d" ∈ [["a", "c"], ["b"], ["d"]][2] ∧
    "c" ∈ [["a", "c"], ["b"], ["d"]][0] ∧
    2 ≠ 0 + 1 :=
  ⟨rfl, rfl, by decide, by decide, by decide⟩

/-- C2, amended: on every validated acyclic set, all dependency-free
services share the first group (index 0); every group of index ≥ 1 is a
singleton holding a dependency-having service; and the group index of every
service is strictly greater than the group index of each of its
dependencies (hence at least `1 + max`, but not necessarily equal to it). -/
theorem startOrder_group_structure (svcs : List Service)
    (hnd : (svcs.map Service.name).Nodup) (hcl : Closed svcs)
    (rank : String → Nat) (hdec : DecAlong svcs rank) :
    ∃ ord, getStartOrder svcs = .ok ord ∧
      (∀ s ∈ svcs, s.dependsOn = [] → ∃ h0 : 0 < ord.length, s.name ∈ ord[0]) ∧
      (∀ i, ∀ hi : i < ord.length, 1 ≤ i → ∃ n, ord[i] = [n]) ∧
      (∀ i j, ∀ hi : i < ord.length, ∀ hj : j < ord.length, ∀ u su d,
        u ∈ ord[i] → svcOf svcs u = some su → d ∈ su.dependsOn → d ∈ ord[j] → j < i) := by
  obtain ⟨ord, hok, -, hord, hfree, hsing, -⟩ := startOrder_main svcs hnd hcl rank hdec
  exact ⟨ord, hok, hfree, hsing, hord⟩

/-- Witness for `startOrder_group_structure` at the two-chain set. -/
theorem startOrder_group_structure_witness :
    ∃ ord, getStartOrder twoChains = .ok ord ∧
      (∀ s ∈ twoChains, s.dependsOn = [] → ∃ h0 : 0 < ord.length, s.name ∈ ord[0]) ∧
      (∀ i, ∀ hi : i < ord.length, 1 ≤ i → ∃ n, ord[i] = [n]) ∧
      (∀ i j, ∀ hi : i < ord.length, ∀ hj : j < ord.length, ∀ u su d,
        u ∈ ord[i] → svcOf twoChains u = some su → d ∈ su.dependsOn → d ∈ ord[j] → j < i) :=
  startOrder_group_structure twoChains (by decide) (by unfold Closed; decide)
    (fun n => if n = "b" then 1 else if n = "d" then 1 else 0) (by unfold DecAlong; decide)

/-- C3, counterexample: on Example A the full-set descending order computed
by `_get_stop_order` is `[[worker], [api], [db], [cache]]` — `db` and
`cache` land in separate singleton groups (each has a dependent, so the
`order[-1].append` merge never applies to them), not in one final group
`[db, cache]` as claimed. -/
theorem exampleA_descending_not_grouped :
    getStopOrder exampleA = .ok [["worker"], ["api"], ["db"], ["cache"]] ∧
    ([["worker"], ["api"], ["db"], ["cache"]] : List (List String)) ≠
      [["worker"], ["api"], ["db", "cache"]] :=
  ⟨rfl, by decide⟩

/-- C3, amended: for Example A the ascending order is
`[[db, cache], [api], [worker]]` exactly as specified, while the descending
order is `[[worker], [api], [db], [cache]]` (same relative order, but `db`
and `cache` in separate singleton groups). -/
theorem exampleA_orders :
    getStartOrder exampleA = .ok [["db", "cache"], ["api"], ["worker"]] ∧
    getStopOrder exampleA = .ok [["worker"], ["api"], ["db"], ["cache"]] :=
  ⟨rfl, rfl⟩

/-! ## Invariants of `_get_stop_order_for_specific` -/

theorem mem_dependentsOf {svcs : List Service} {n w : String} :
    w ∈ dependentsOf svcs n ↔ ∃ t ∈ svcs, t.name = w ∧ n ∈ t.dependsOn := by
  simp only [dependentsOf, List.mem_map, List.mem_filter, decide_eq_true_eq]
  constructor
  · rintro ⟨t, ⟨ht, hdep⟩, rfl⟩
    exact ⟨t, ht, rfl, hdep⟩
  · rintro ⟨t, ht, rfl, hdep⟩
    exact ⟨t, ⟨ht, hdep⟩, rfl⟩

theorem appendLast_length (n : String) : ∀ {L : List (List String)}, L ≠ [] →
    (appendLast n L).length = L.length := by
  intro L
  induction L with
  | nil => intro h; cases h rfl
  | cons g rest ih =>
    intro _
    cases rest with
    | nil => rfl
    | cons h₂ t =>
      show (g :: appendLast n (h₂ :: t)).length = _
      simp only [List.length_cons]
      rw [ih (by simp)]
      simp

theorem appendLast_flatten (n : String) : ∀ L : List (List String),
    (appendLast n L).flatten = L.flatten ++ [n] := by
  intro L
  induction L with
  | nil => rfl
  | cons g rest ih =>
    cases rest with
    | nil => simp [appendLast]
    | cons h₂ t =>
      show (g :: appendLast n (h₂ :: t)).flatten = _
      simp only [List.flatten_cons]
      rw [ih]
      simp [List.append_assoc]

theorem appendLast_groups_ne (n : String) : ∀ {L : List (List String)},
    (∀ g ∈ L, g ≠ []) → ∀ g ∈ appendLast n L, g ≠ [] := by
  intro L
  induction L with
  | nil =>
    intro _ g hg
    rcases List.mem_singleton.mp hg with rfl
    simp
  | cons g₀ rest ih =>
    intro hall g hg
    cases rest with
    | nil =>
      rcases List.mem_singleton.mp hg with rfl
      simp
    | cons h₂ t =>
      rcases List.mem_cons.mp hg with rfl | hg'
      · exact hall g (List.mem_cons_self _ _)
      · exact ih (fun g₁ hg₁ => hall g₁ (List.mem_cons_of_mem _ hg₁)) g hg'

theorem mem_appendLast_getElem (n : String) : ∀ {L : List (List String)},
    ∀ {i : Nat}, ∀ hiA : i < (appendLast n L).length, ∀ hiL : i < L.length, ∀ a : String,
    (a ∈ (appendLast n L)[i] ↔ a ∈ L[i] ∨ (a = n ∧ i = L.length - 1)) := by
  intro L
  induction L with
  | nil =>
    intro i _ hiL
    exact absurd hiL (by simp)
  | cons g rest ih =>
    intro i hiA hiL a
    cases rest with
    | nil =>
      match i, hiA, hiL with
      | 0, _, _ => simp [appendLast]
    | cons h₂ t =>
      have hshape : appendLast n (g :: h₂ :: t) = g :: appendLast n (h₂ :: t) := rfl
      match i, hiA, hiL with
      | 0, hiA, hiL =>
        have e := List.getElem_of_eq hshape hiA
        rw [e]
        simp only [List.getElem_cons_zero, List.length_cons]
        constructor
        · intro h
          exact Or.inl h
        · rintro (h | ⟨rfl, habs⟩)
          · exact h
          · omega
      | i + 1, hiA, hiL =>
        have e := List.getElem_of_eq hshape hiA
        rw [e]
        have hiA1 : i < (appendLast n (h₂ :: t)).length := by
          have := hiA
          rw [hshape] at this
          simpa using Nat.lt_of_succ_lt_succ this
        have hiL1 : i < (h₂ :: t).length := by simpa using Nat.lt_of_succ_lt_succ hiL
        simp only [List.getElem_cons_succ]
        rw [ih hiA1 hiL1 a]
        simp only [List.length_cons]
        constructor
        · rintro (h | ⟨rfl, heq⟩)
          · exact Or.inl h
          · exact Or.inr ⟨rfl, by omega⟩
        · rintro (h | ⟨rfl, heq⟩)
          · exact Or.inl h
          · exact Or.inr ⟨rfl, by omega⟩

/-- Invariant of the subset stop-order state, parametrised by the
reachability predicate `Pr` (membership of the requested closure): names
placed in `order` coincide with `stopped_services`, belong to the service
set and to the closure, have all their dependents already stopped, and any
placed service sits in a strictly earlier group than every placed service
it depends on. -/
structure TInv (svcs : List Service) (Pr : String → Prop) (st : StopState) : Prop where
  stoppedIff : ∀ n, n ∈ st.stopped ↔ n ∈ st.order.flatten
  flatNodup : st.order.flatten.Nodup
  groupsNe : ∀ g ∈ st.order, g ≠ []
  memSrc : ∀ n ∈ st.order.flatten, ∃ s ∈ svcs, s.name = n
  deptStopped : ∀ n ∈ st.order.flatten, ∀ w ∈ dependentsOf svcs n, w ∈ st.stopped
  reach : ∀ n ∈ st.order.flatten, Pr n
  ordering : ∀ i j, ∀ hi : i < st.order.length, ∀ hj : j < st.order.length, ∀ u su d,
    u ∈ st.order[i] → svcOf svcs u = some su → d ∈ su.dependsOn →
    d ∈ st.order[j] → i < j

/-- The dependent loop succeeds when its body does. -/
theorem stopDepsGo_ok {f : String → StopState → Except Err StopState}
    {P : String → Prop} (hf : ∀ w st, P w → ∃ st', f w st = .ok st') :
    ∀ ws st, (∀ w ∈ ws, P w) → ∃ st', stopDepsGo f ws st = .ok st' := by
  intro ws
  induction ws with
  | nil => intro st _; exact ⟨st, rfl⟩
  | cons w rest ih =>
    intro st hP
    obtain ⟨st₁, h₁⟩ := hf w st (hP w (List.mem_cons_self w rest))
    obtain ⟨st', h'⟩ := ih st₁ (fun v hv => hP v (List.mem_cons_of_mem _ hv))
    exact ⟨st', by simp only [stopDepsGo]; rw [h₁]; simpa [Bind.bind, Except.bind] using h'⟩

/-- The dependent loop preserves the invariant and stops every processed
dependent. -/
theorem stopDepsGo_pres {svcs : List Service} {Pr : String → Prop}
    {f : String → StopState → Except Err StopState}
    (hf : ∀ w st st', Pr w → f w st = .ok st' → TInv svcs Pr st →
      TInv svcs Pr st' ∧ (∀ n ∈ st.stopped, n ∈ st'.stopped) ∧ w ∈ st'.stopped) :
    ∀ ws st st', (∀ w ∈ ws, Pr w) → stopDepsGo f ws st = .ok st' → TInv svcs Pr st →
      TInv svcs Pr st' ∧ (∀ n ∈ st.stopped, n ∈ st'.stopped) ∧ ∀ w ∈ ws, w ∈ st'.stopped := by
  intro ws
  induction ws with
  | nil =>
    intro st st' _ h hinv
    simp only [stopDepsGo] at h
    cases h
    exact ⟨hinv, fun _ h' => h', by simp⟩
  | cons w rest ih =>
    intro st st' hP h hinv
    simp only [stopDepsGo] at h
    obtain ⟨st₁, h₁, h₂⟩ := bind_ok h
    obtain ⟨hinv₁, hmono₁, hw⟩ := hf w st st₁ (hP w (List.mem_cons_self w rest)) h₁ hinv
    obtain ⟨hinv', hmono', hrest⟩ := ih st₁ st' (fun v hv => hP v (List.mem_cons_of_mem _ hv))
      h₂ hinv₁
    refine ⟨hinv', fun n hn => hmono' n (hmono₁ n hn), ?_⟩
    intro v hv
    rcases List.mem_cons.mp hv with rfl | hv'
    · exact hmono' v hw
    · exact hrest v hv'

/-- Appending a fresh singleton group for a service whose dependents are all
already stopped preserves the stop invariant. -/
theorem TInv_stop_append {svcs : List Service} (hnd : (svcs.map Service.name).Nodup)
    {rank : String → Nat} (hdec : DecAlong svcs rank) {Pr : String → Prop}
    {st₁ : StopState} (hinv₁ : TInv svcs Pr st₁)
    {s : Service} (hs : s ∈ svcs) (hPs : Pr s.name)
    (hmem₁ : s.name ∉ st₁.stopped)
    (hcov : ∀ w ∈ dependentsOf svcs s.name, w ∈ st₁.stopped) :
    TInv svcs Pr ⟨st₁.order ++ [[s.name]], st₁.stopped ++ [s.name]⟩ := by
  have hsOf : svcOf svcs s.name = some s := svcOf_self hnd hs
  have hnotflat : s.name ∉ st₁.order.flatten := fun hx => hmem₁ ((hinv₁.stoppedIff _).mpr hx)
  have hnodep : ∀ v ∈ st₁.order.flatten, v ∈ s.dependsOn → False := fun v hv hvd =>
    hmem₁ (hinv₁.deptStopped v hv s.name (mem_dependentsOf.mpr ⟨s, hs, rfl, hvd⟩))
  have hself : s.name ∉ s.dependsOn := fun hsl => absurd (hdec s hs s.name hsl) (lt_irrefl _)
  refine ⟨?_, ?_, ?_, ?_, ?_, ?_, ?_⟩
  · intro n
    simp [List.mem_append, hinv₁.stoppedIff n]
  · simp only [List.flatten_append, List.flatten_cons, List.flatten_nil, List.append_nil]
    exact (List.nodup_append).mpr ⟨hinv₁.flatNodup, List.nodup_singleton _,
      by simpa [List.disjoint_singleton] using hnotflat⟩
  · intro g hg
    rcases List.mem_append.mp hg with h' | h'
    · exact hinv₁.groupsNe g h'
    · rcases List.mem_singleton.mp h' with rfl
      simp
  · intro n hn
    simp only [List.flatten_append, List.flatten_cons, List.flatten_nil,
      List.append_nil] at hn
    rcases List.mem_append.mp hn with h' | h'
    · exact hinv₁.memSrc n h'
    · rcases List.mem_singleton.mp h' with rfl
      exact ⟨s, hs, rfl⟩
  · intro n hn w hw
    simp only [List.flatten_append, List.flatten_cons, List.flatten_nil,
      List.append_nil] at hn
    rcases List.mem_append.mp hn with h' | h'
    · exact List.mem_append.mpr (Or.inl (hinv₁.deptStopped n h' w hw))
    · rcases List.mem_singleton.mp h' with rfl
      exact List.mem_append.mpr (Or.inl (hcov w hw))
  · intro n hn
    simp only [List.flatten_append, List.flatten_cons, List.flatten_nil,
      List.append_nil] at hn
    rcases List.mem_append.mp hn with h' | h'
    · exact hinv₁.reach n h'
    · rcases List.mem_singleton.mp h' with rfl
      exact hPs
  · intro i j hi hj u su d hu hsv hd hdj
    simp only [List.length_append, List.length_cons, List.length_nil] at hi hj
    dsimp only at hu hdj
    by_cases hi' : i < st₁.order.length
    · rw [List.getElem_append_left hi'] at hu
      by_cases hj' : j < st₁.order.length
      · rw [List.getElem_append_left hj'] at hdj
        exact hinv₁.ordering i j hi' hj' u su d hu hsv hd hdj
      · omega
    · have hieq : i = st₁.order.length := by omega
      subst hieq
      rw [List.getElem_concat_length _ _ _ rfl _] at hu
      rcases List.mem_singleton.mp hu with rfl
      have hsu : su = s := by
        rw [hsOf] at hsv
        exact (Option.some.inj hsv).symm
      rw [hsu] at hd
      by_cases hj' : j < st₁.order.length
      · rw [List.getElem_append_left hj'] at hdj
        exact absurd hd (fun hd' => hnodep d
          (List.mem_flatten.mpr ⟨st₁.order[j], List.getElem_mem hj', hdj⟩) hd')
      · have hjeq : j = st₁.order.length := by omega
        subst hjeq
        rw [List.getElem_concat_length _ _ _ rfl _] at hdj
        rcases List.mem_singleton.mp hdj with rfl
        exact absurd hd hself

/-- Merging a dependent-free service into the last group preserves the
stop invariant. -/
theorem TInv_stop_merge {svcs : List Service} (hnd : (svcs.map Service.name).Nodup)
    {rank : String → Nat} (hdec : DecAlong svcs rank) {Pr : String → Prop}
    {st₁ : StopState} (hinv₁ : TInv svcs Pr st₁)
    {s : Service} (hs : s ∈ svcs) (hPs : Pr s.name)
    (hmem₁ : s.name ∉ st₁.stopped)
    (hdeps : dependentsOf svcs s.name = [])
    (hord : st₁.order ≠ []) :
    TInv svcs Pr ⟨appendLast s.name st₁.order, st₁.stopped ++ [s.name]⟩ := by
  have hsOf : svcOf svcs s.name = some s := svcOf_self hnd hs
  have hnotflat : s.name ∉ st₁.order.flatten := fun hx => hmem₁ ((hinv₁.stoppedIff _).mpr hx)
  have hnodep : ∀ v ∈ st₁.order.flatten, v ∈ s.dependsOn → False := fun v hv hvd =>
    hmem₁ (hinv₁.deptStopped v hv s.name (mem_dependentsOf.mpr ⟨s, hs, rfl, hvd⟩))
  have hself : s.name ∉ s.dependsOn := fun hsl => absurd (hdec s hs s.name hsl) (lt_irrefl _)
  have hflat : (appendLast s.name st₁.order).flatten = st₁.order.flatten ++ [s.name] :=
    appendLast_flatten s.name st₁.order
  have hlen : (appendLast s.name st₁.order).length = st₁.order.length :=
    appendLast_length s.name hord
  refine ⟨?_, ?_, ?_, ?_, ?_, ?_, ?_⟩
  · intro n
    dsimp only
    rw [hflat]
    simp [List.mem_append, hinv₁.stoppedIff n]
  · dsimp only
    rw [hflat]
    exact (List.nodup_append).mpr ⟨hinv₁.flatNodup, List.nodup_singleton _,
      by simpa [List.disjoint_singleton] using hnotflat⟩
  · exact appendLast_groups_ne s.name hinv₁.groupsNe
  · intro n hn
    dsimp only at hn
    rw [hflat] at hn
    rcases List.mem_append.mp hn with h' | h'
    · exact hinv₁.memSrc n h'
    · rcases List.mem_singleton.mp h' with rfl
      exact ⟨s, hs, rfl⟩
  · intro n hn w hw
    dsimp only at hn
    rw [hflat] at hn
    rcases List.mem_append.mp hn with h' | h'
    · exact List.mem_append.mpr (Or.inl (hinv₁.deptStopped n h' w hw))
    · rcases List.mem_singleton.mp h' with rfl
      rw [hdeps] at hw
      cases hw
  · intro n hn
    dsimp only at hn
    rw [hflat] at hn
    rcases List.mem_append.mp hn with h' | h'
    · exact hinv₁.reach n h'
    · rcases List.mem_singleton.mp h' with rfl
      exact hPs
  · intro i j hi hj u su d hu hsv hd hdj
    dsimp only at hu hdj hi hj
    have hiL : i < st₁.order.length := by rw [hlen] at hi; exact hi
    have hjL : j < st₁.order.length := by rw [hlen] at hj; exact hj
    rcases (mem_appendLast_getElem s.name hi hiL u).mp hu with hu' | ⟨rfl, hieq⟩
    · rcases (mem_appendLast_getElem s.name hj hjL d).mp hdj with hd' | ⟨rfl, hjeq⟩
      · exact hinv₁.ordering i j hiL hjL u su d hu' hsv hd hd'
      · -- `u` would be a dependent of `s`, but `s` has no dependents
        obtain ⟨hsu_mem, hsu_name⟩ := svcOf_eq_some hsv
        have : u ∈ dependentsOf svcs s.name :=
          mem_dependentsOf.mpr ⟨su, hsu_mem, hsu_name, hd⟩
        rw [hdeps] at this
        cases this
    · have hsu : su = s := by
        rw [hsOf] at hsv
        exact (Option.some.inj hsv).symm
      rw [hsu] at hd
      rcases (mem_appendLast_getElem s.name hj hjL d).mp hdj with hd' | ⟨rfl, hjeq⟩
      · exact absurd hd (fun hd₂ => hnodep d
          (List.mem_flatten.mpr ⟨st₁.order[j], List.getElem_mem hjL, hd'⟩) hd₂)
      · exact absurd hd hself

/-- `add_service` of the subset stop order preserves the invariant and
stops the processed service. -/
theorem addStop_pres {svcs : List Service} (hnd : (svcs.map Service.name).Nodup)
    {rank : String → Nat} (hdec : DecAlong svcs rank) {Pr : String → Prop}
    (hstep : ∀ n w, Pr n → w ∈ dependentsOf svcs n → Pr w) :
    ∀ fuel, ∀ s ∈ svcs, Pr s.name → ∀ st st', addStop fuel svcs s st = .ok st' →
      TInv svcs Pr st →
      TInv svcs Pr st' ∧ (∀ n ∈ st.stopped, n ∈ st'.stopped) ∧ s.name ∈ st'.stopped := by
  intro fuel
  induction fuel with
  | zero =>
    intro s _ _ st st' h
    simp only [addStop] at h
    cases h
  | succ fuel ih =>
    intro s hs hPs st st' h hinv
    simp only [addStop] at h
    by_cases hmem : s.name ∈ st.stopped
    · rw [if_pos hmem] at h
      cases h
      exact ⟨hinv, fun _ h' => h', hmem⟩
    · rw [if_neg hmem] at h
      obtain ⟨st₁, h₁, h₂⟩ := bind_ok h
      have hbody : ∀ w st₀ st₀', Pr w → (do
            let ws ← getService svcs w
            if ws.name ∈ st₀.stopped then pure st₀
            else addStop fuel svcs ws st₀ : Except Err StopState) = .ok st₀' →
          TInv svcs Pr st₀ →
          TInv svcs Pr st₀' ∧ (∀ n ∈ st₀.stopped, n ∈ st₀'.stopped) ∧ w ∈ st₀'.stopped := by
        intro w st₀ st₀' hPw hcall hinv₀
        obtain ⟨ws, hget, hrun⟩ := bind_ok hcall
        obtain ⟨hwm, hwn⟩ := getService_ok hget
        by_cases hws : ws.name ∈ st₀.stopped
        · rw [if_pos hws] at hrun
          have heq : st₀' = st₀ := by
            simpa [pure, Except.pure] using hrun.symm
          subst heq
          exact ⟨hinv₀, fun _ h' => h', hwn ▸ hws⟩
        · rw [if_neg hws] at hrun
          have hres := ih ws hwm (by rw [hwn]; exact hPw) st₀ st₀' hrun hinv₀
          exact ⟨hres.1, hres.2.1, hwn ▸ hres.2.2⟩
      have hPdeps : ∀ w ∈ dependentsOf svcs s.name, Pr w :=
        fun w hw => hstep s.name w hPs hw
      obtain ⟨hinv₁, hmono₁, hcov⟩ := stopDepsGo_pres hbody
        (dependentsOf svcs s.name) st st₁ hPdeps h₁ hinv
      by_cases hmem₁ : s.name ∈ st₁.stopped
      · rw [if_pos hmem₁] at h₂
        cases h₂
        exact ⟨hinv₁, hmono₁, hmem₁⟩
      · rw [if_neg hmem₁] at h₂
        by_cases hdeps : dependentsOf svcs s.name ≠ []
        · rw [if_pos hdeps] at h₂
          cases h₂
          refine ⟨TInv_stop_append hnd hdec hinv₁ hs hPs hmem₁ hcov, ?_, ?_⟩
          · exact fun n hn => List.mem_append.mpr (Or.inl (hmono₁ n hn))
          · exact List.mem_append.mpr (Or.inr (List.mem_singleton.mpr rfl))
        · rw [if_neg hdeps] at h₂
          push_neg at hdeps
          by_cases hord : st₁.order ≠ []
          · rw [if_pos hord] at h₂
            cases h₂
            refine ⟨TInv_stop_merge hnd hdec hinv₁ hs hPs hmem₁ hdeps hord, ?_, ?_⟩
            · exact fun n hn => List.mem_append.mpr (Or.inl (hmono₁ n hn))
            · exact List.mem_append.mpr (Or.inr (List.mem_singleton.mpr rfl))
          · rw [if_neg hord] at h₂
            cases h₂
            push_neg at hord
            have happ := TInv_stop_append hnd hdec hinv₁ hs hPs hmem₁ hcov
            rw [hord] at happ
            simp only [List.nil_append] at happ
            refine ⟨happ, ?_, ?_⟩
            · exact fun n hn => List.mem_append.mpr (Or.inl (hmono₁ n hn))
            · exact List.mem_append.mpr (Or.inr (List.mem_singleton.mpr rfl))

/-- With fuel past the rank gap, `add_service` of the subset stop order
completes: recursion climbs to dependents, whose rank strictly grows and is
bounded. -/
theorem addStop_ok {svcs : List Service} {rank : String → Nat} (hdec : DecAlong svcs rank)
    {N : Nat} (hbound : ∀ s ∈ svcs, rank s.name < N) :
    ∀ fuel, ∀ s ∈ svcs, ∀ st, N - rank s.name ≤ fuel →
      ∃ st', addStop fuel svcs s st = .ok st' := by
  intro fuel
  induction fuel with
  | zero =>
    intro s hs _ hf
    exfalso
    have := hbound s hs
    omega
  | succ fuel ih =>
    intro s hs st hf
    simp only [addStop]
    by_cases hmem : s.name ∈ st.stopped
    · rw [if_pos hmem]
      exact ⟨st, rfl⟩
    · rw [if_neg hmem]
      have hloop := stopDepsGo_ok (f := fun w acc => do
          let ws ← getService svcs w
          if ws.name ∈ acc.stopped then pure acc else addStop fuel svcs ws acc)
        (P := fun w => w ∈ dependentsOf svcs s.name) ?_ (dependentsOf svcs s.name) st
        (fun _ hw => hw)
      · obtain ⟨st₁, h₁⟩ := hloop
        rw [h₁]
        have hrest : ∃ st', ((if s.name ∈ st₁.stopped then .ok st₁
            else if dependentsOf svcs s.name ≠ [] then
              .ok (⟨st₁.order ++ [[s.name]], st₁.stopped ++ [s.name]⟩ : StopState)
            else if st₁.order ≠ [] then
              .ok (⟨appendLast s.name st₁.order, st₁.stopped ++ [s.name]⟩ : StopState)
            else .ok (⟨[[s.name]], st₁.stopped ++ [s.name]⟩ : StopState)) :
              Except Err StopState) = .ok st' := by
          split_ifs <;> exact ⟨_, rfl⟩
        obtain ⟨st', h'⟩ := hrest
        exact ⟨st', by simpa [Bind.bind, Except.bind] using h'⟩
      · intro w st₀ hw
        obtain ⟨t, ht, htn, htd⟩ := mem_dependentsOf.mp hw
        obtain ⟨ws, hget, hwm, hwn⟩ := getService_closed ⟨t, ht, htn⟩
        by_cases hws : ws.name ∈ st₀.stopped
        · exact ⟨st₀, by simp [hget, Bind.bind, Except.bind, hws, pure, Except.pure]⟩
        · have hrk : rank s.name < rank w := by
            have := hdec t ht s.name htd
            rw [htn] at this
            exact this
          have hfw : N - rank ws.name ≤ fuel := by
            rw [hwn]
            have := hbound s hs
            omega
          obtain ⟨st₁, h₁⟩ := ih ws hwm st₀ hfw
          exact ⟨st₁, by simp [hget, Bind.bind, Except.bind, hws, h₁]⟩

/-- Fold of `add_service` over the requested services: preservation. -/
theorem stopSpecificF_pres {svcs : List Service} (hnd : (svcs.map Service.name).Nodup)
    {rank : String → Nat} (hdec : DecAlong svcs rank) {Pr : String → Prop}
    (hstep : ∀ n w, Pr n → w ∈ dependentsOf svcs n → Pr w) :
    ∀ specific : List Service, (∀ r ∈ specific, r ∈ svcs ∧ Pr r.name) →
    ∀ fuel st ord, getStopOrderSpecificF fuel svcs specific st = .ok ord → TInv svcs Pr st →
      ∃ stF : StopState, ord = stF.order ∧ TInv svcs Pr stF ∧
        (∀ n ∈ st.stopped, n ∈ stF.stopped) ∧ ∀ r ∈ specific, r.name ∈ stF.stopped := by
  intro specific
  induction specific with
  | nil =>
    intro _ fuel st ord h hinv
    simp only [getStopOrderSpecificF] at h
    cases h
    exact ⟨st, rfl, hinv, fun _ h' => h', by simp⟩
  | cons r rest ih =>
    intro hreq fuel st ord h hinv
    simp only [getStopOrderSpecificF] at h
    obtain ⟨st₁, h₁, h₂⟩ := bind_ok h
    obtain ⟨hr, hPr⟩ := hreq r (List.mem_cons_self r rest)
    obtain ⟨hinv₁, hmono₁, hstop₁⟩ := addStop_pres hnd hdec hstep fuel r hr hPr st st₁ h₁ hinv
    obtain ⟨stF, rfl, hinvF, hmonoF, hrest⟩ :=
      ih (fun t ht => hreq t (List.mem_cons_of_mem _ ht)) fuel st₁ _ h₂ hinv₁
    refine ⟨stF, rfl, hinvF, fun n hn => hmonoF n (hmono₁ n hn), ?_⟩
    intro t ht
    rcases List.mem_cons.mp ht with rfl | ht'
    · exact hmonoF _ hstop₁
    · exact hrest t ht'

/-- Fold of `add_service` over the requested services: success. -/
theorem stopSpecificF_ok {svcs : List Service} {rank : String → Nat}
    (hdec : DecAlong svcs rank) (hbound : ∀ s ∈ svcs, rank s.name < svcs.length) :
    ∀ specific : List Service, (∀ r ∈ specific, r ∈ svcs) → ∀ st,
      ∃ ord, getStopOrderSpecificF (svcs.length + 1) svcs specific st = .ok ord := by
  intro specific
  induction specific with
  | nil => intro _ st; exact ⟨st.order, rfl⟩
  | cons r rest ih =>
    intro hreq st
    obtain ⟨st₁, h₁⟩ := addStop_ok hdec hbound (svcs.length + 1) r
      (hreq r (List.mem_cons_self r rest)) st (by omega)
    obtain ⟨ord, h'⟩ := ih (fun t ht => hreq t (List.mem_cons_of_mem _ ht)) st₁
    refine ⟨ord, ?_⟩
    simp only [getStopOrderSpecificF]
    rw [h₁]
    simpa [Bind.bind, Except.bind] using h'

/-- One dependent step: `b` is the name of a service of the set that
depends on `a`. -/
def DepStep (svcs : List Service) (a b : String) : Prop :=
  b ∈ dependentsOf svcs a

/-- The descending closure of a requested subset: the requested names
together with all their transitive dependents. -/
def StopClosure (svcs specific : List Service) (n : String) : Prop :=
  ∃ r ∈ specific, Relation.ReflTransGen (DepStep svcs) r.name n

/-- C7: for every validated acyclic set and every requested subset of its
services, `_get_stop_order_for_specific` succeeds; the names it emits are
exactly the requested services plus all of their transitive dependents; and
whenever a placed service `u` depends on a placed name `d`, `u`'s group
strictly precedes `d`'s (dependents stop before what they depend on). -/
theorem stopOrderSpecific_closure_and_order (svcs specific : List Service)
    (hnd : (svcs.map Service.name).Nodup) (hcl : Closed svcs)
    (hspec : ∀ r ∈ specific, r ∈ svcs)
    (rank : String → Nat) (hdec : DecAlong svcs rank) :
    ∃ ord, getStopOrderSpecific svcs specific = .ok ord ∧
      (∀ n, n ∈ ord.flatten ↔ StopClosure svcs specific n) ∧
      (∀ i j, ∀ hi : i < ord.length, ∀ hj : j < ord.length, ∀ u su d,
        u ∈ ord[i] → svcOf svcs u = some su → d ∈ su.dependsOn → d ∈ ord[j] → i < j) := by
  obtain ⟨rk, hdec', hbound⟩ := exists_bounded_rank svcs hcl rank hdec
  have hstep : ∀ n w, StopClosure svcs specific n → w ∈ dependentsOf svcs n →
      StopClosure svcs specific w := by
    rintro n w ⟨r, hr, hrtg⟩ hw
    exact ⟨r, hr, hrtg.tail hw⟩
  obtain ⟨ord, hok⟩ := stopSpecificF_ok hdec' hbound specific hspec ⟨[], []⟩
  have hinv0 : TInv svcs (StopClosure svcs specific) ⟨[], []⟩ := by
    refine ⟨?_, ?_, ?_, ?_, ?_, ?_, ?_⟩ <;> simp
  obtain ⟨stF, rfl, hinvF, -, hreq⟩ := stopSpecificF_pres hnd hdec' hstep specific
    (fun r hr => ⟨hspec r hr, ⟨r, hr, Relation.ReflTransGen.refl⟩⟩) (svcs.length + 1)
    ⟨[], []⟩ _ hok hinv0
  refine ⟨stF.order, hok, ?_, hinvF.ordering⟩
  intro n
  constructor
  · exact fun hn => hinvF.reach n hn
  · rintro ⟨r, hr, hrtg⟩
    have hchain : ∀ m, Relation.ReflTransGen (DepStep svcs) r.name m → m ∈ stF.stopped := by
      intro m hm
      induction hm with
      | refl => exact hreq r hr
      | tail hab hbc ihm =>
        exact hinvF.deptStopped _ ((hinvF.stoppedIff _).mp ihm) _ hbc
    exact (hinvF.stoppedIff n).mp (hchain n hrtg)

/-- Witness for `stopOrderSpecific_closure_and_order`: Example C of the
specification (stop requested on `[db]` alone pulls in `api` and `worker`
and stops them first). -/
theorem stopOrderSpecific_closure_and_order_witness :
    ∃ ord, getStopOrderSpecific exampleA [⟨"db", []⟩] = .ok ord ∧
      (∀ n, n ∈ ord.flatten ↔ StopClosure exampleA [⟨"db", []⟩] n) ∧
      (∀ i j, ∀ hi : i < ord.length, ∀ hj : j < ord.length, ∀ u su d,
        u ∈ ord[i] → svcOf exampleA u = some su → d ∈ su.dependsOn → d ∈ ord[j] → i < j) :=
  stopOrderSpecific_closure_and_order exampleA [⟨"db", []⟩] (by decide)
    (by unfold Closed; decide) (by decide) exampleARank (by unfold DecAlong; decide)

/-! ## `_validate_dependencies` and cycle detection -/

/-- Inner loop of the unknown-dependency check: the first `depends_on`
entry absent from the name set raises
`ValueError(f"Invalid dependency '{dep}' for service '{svc}'")`. -/
def checkUnknownDeps (names : List String) (svc : String) : List String → Except Err Unit
  | [] => .ok ()
  | d :: rest =>
    if d ∈ names then checkUnknownDeps names svc rest
    else .error (.invalidDependency d svc)

/-- First phase of `_validate_dependencies`: scan every service's
dependency list against the set of service names. -/
def checkUnknown (names : List String) : List Service → Except Err Unit
  | [] => .ok ()
  | s :: rest => do
    checkUnknownDeps names s.name s.dependsOn
    checkUnknown names rest

/-- The `for dependency in service.depends_on` loop of `check_circular`,
parametrised by the per-dependency body. -/
def circDepsGo (f : String → Except Err Unit) : List String → Except Err Unit
  | [] => .ok ()
  | d :: rest => do
    f d
    circDepsGo f rest

/-- `check_circular(service, path)`: raise on a repeated node, otherwise
recurse into every dependency with the extended path.  (`next(s for s in
self.services if s.name == dependency)` is rendered by `getService`; under
the closure established by the first phase it never fails.) -/
def checkCirc : Nat → List Service → Service → List String → Except Err Unit
  | 0, _, _, _ => .error .outOfFuel
  | fuel + 1, svcs, s, path =>
    if s.name ∈ path then .error (.circularDependency (path ++ [s.name]))
    else circDepsGo (fun d => do
        let ds ← getService svcs d
        checkCirc fuel svcs ds (path ++ [s.name])) s.dependsOn

/-- The `for service in self.services: check_circular(service, [])` loop. -/
def checkCircAll (fuel : Nat) (svcs : List Service) : List Service → Except Err Unit
  | [] => .ok ()
  | s :: rest => do
    checkCirc fuel svcs s []
    checkCircAll fuel svcs rest

/-- `_validate_dependencies`: the unknown-dependency scan, then the cycle
scan from every service.  Fuel `svcs.length + 1` is enough for the cycle
scan because the carried path stays duplicate-free (proved below). -/
def validateDependencies (svcs : List Service) : Except Err Unit := do
  checkUnknown (svcs.map Service.name) svcs
  checkCircAll (svcs.length + 1) svcs svcs

/-- A dependency edge between names: the service found for `a` lists `b`. -/
def EdgeDep (svcs : List Service) (a b : String) : Prop :=
  ∃ s, svcOf svcs a = some s ∧ b ∈ s.dependsOn

/-- Under closure the unknown-dependency scan passes. -/
theorem checkUnknown_ok {svcs : List Service} (hcl : Closed svcs) :
    ∀ l, (∀ s ∈ l, s ∈ svcs) → checkUnknown (svcs.map Service.name) l = .ok () := by
  intro l
  induction l with
  | nil => intro _; rfl
  | cons s rest ih =>
    intro hsub
    have hdeps : ∀ deps, (∀ d ∈ deps, d ∈ s.dependsOn) →
        checkUnknownDeps (svcs.map Service.name) s.name deps = .ok () := by
      intro deps
      induction deps with
      | nil => intro _; rfl
      | cons d drest ihd =>
        intro hd
        obtain ⟨t, ht, htn⟩ := hcl s (hsub s (List.mem_cons_self s rest)) d
          (hd d (List.mem_cons_self d drest))
        have : d ∈ svcs.map Service.name := List.mem_map.mpr ⟨t, ht, htn⟩
        simp only [checkUnknownDeps, if_pos this]
        exact ihd (fun x hx => hd x (List.mem_cons_of_mem _ hx))
    simp only [checkUnknown]
    rw [hdeps s.dependsOn (fun _ h => h)]
    simpa [Bind.bind, Except.bind] using ih (fun t ht => hsub t (List.mem_cons_of_mem _ ht))

/-- The dependency loop of `check_circular` either passes or reports a
cyclic path (a list with a repeated entry), provided its body does. -/
theorem circDepsGo_cases {f : String → Except Err Unit} {P : String → Prop}
    (hf : ∀ d, P d → f d = .ok () ∨
      ∃ p, f d = .error (.circularDependency p) ∧ ¬p.Nodup) :
    ∀ deps, (∀ d ∈ deps, P d) → circDepsGo f deps = .ok () ∨
      ∃ p, circDepsGo f deps = .error (.circularDependency p) ∧ ¬p.Nodup := by
  intro deps
  induction deps with
  | nil => intro _; exact Or.inl rfl
  | cons d rest ih =>
    intro hP
    rcases hf d (hP d (List.mem_cons_self d rest)) with h | ⟨p, h, hp⟩
    · rcases ih (fun x hx => hP x (List.mem_cons_of_mem _ hx)) with h' | ⟨p, h', hp⟩
      · exact Or.inl (by simp [circDepsGo, Bind.bind, Except.bind, h, h'])
      · exact Or.inr ⟨p, by simp [circDepsGo, Bind.bind, Except.bind, h, h'], hp⟩
    · exact Or.inr ⟨p, by simp [circDepsGo, Bind.bind, Except.bind, h], hp⟩

/-- If the dependency loop passes, each body call passed. -/
theorem circDepsGo_ok_forall {f : String → Except Err Unit} :
    ∀ deps, circDepsGo f deps = .ok () → ∀ d ∈ deps, f d = .ok () := by
  intro deps
  induction deps with
  | nil => intro _ d hd; cases hd
  | cons d rest ih =>
    intro h x hx
    simp only [circDepsGo] at h
    obtain ⟨a, ha, hrest⟩ := bind_ok h
    rcases List.mem_cons.mp hx with rfl | hx'
    · cases a; exact ha
    · exact ih hrest x hx'

/-- Core dichotomy of `check_circular`: with a duplicate-free path drawn
from the service names and total budget `svcs.length + 1`, the scan either
passes or reports a cyclic path; the fuel never runs out because the path
grows while staying duplicate-free inside a finite name set. -/
theorem checkCirc_cases {svcs : List Service} (hcl : Closed svcs) :
    ∀ fuel (s : Service) (path : List String), s ∈ svcs → path.Nodup →
      (∀ x ∈ path, x ∈ svcs.map Service.name) →
      svcs.length + 1 ≤ fuel + path.length →
      checkCirc fuel svcs s path = .ok () ∨
        ∃ p, checkCirc fuel svcs s path = .error (.circularDependency p) ∧ ¬p.Nodup := by
  intro fuel
  induction fuel with
  | zero =>
    intro s path _ hnodup hsub hlen
    exfalso
    have h1 : path.toFinset.card = path.length := List.toFinset_card_of_nodup hnodup
    have h2 : path.toFinset ⊆ (svcs.map Service.name).toFinset := by
      intro x hx
      exact List.mem_toFinset.mpr (hsub x (List.mem_toFinset.mp hx))
    have h3 := Finset.card_le_card h2
    have h4 := (svcs.map Service.name).toFinset_card_le
    simp only [List.length_map] at h4
    omega
  | succ fuel ih =>
    intro s path hs hnodup hsub hlen
    simp only [checkCirc]
    by_cases hmem : s.name ∈ path
    · rw [if_pos hmem]
      refine Or.inr ⟨path ++ [s.name], rfl, ?_⟩
      intro hnd
      rcases (List.nodup_append).mp hnd with ⟨-, -, hdisj⟩
      exact hdisj hmem (List.mem_singleton.mpr rfl)
    · rw [if_neg hmem]
      apply circDepsGo_cases (P := fun d => ∃ t ∈ svcs, t.name = d) ?_ s.dependsOn
        (fun d hd => hcl s hs d hd)
      intro d hPd
      obtain ⟨ds, hget, hdm, hdn⟩ := getService_closed hPd
      have hrec := ih ds (path ++ [s.name]) hdm
        (by
          refine (List.nodup_append).mpr ⟨hnodup, List.nodup_singleton _, ?_⟩
          intro x hx hx'
          rcases List.mem_singleton.mp hx' with rfl
          exact hmem hx)
        (by
          intro x hx
          rcases List.mem_append.mp hx with h' | h'
          · exact hsub x h'
          · rcases List.mem_singleton.mp h' with rfl
            exact List.mem_map.mpr ⟨s, hs, rfl⟩)
        (by simp only [List.length_append, List.length_cons, List.length_nil]; omega)
      rcases hrec with h | ⟨p, h, hp⟩
      · exact Or.inl (by simp [Bind.bind, Except.bind, hget, h])
      · exact Or.inr ⟨p, by simp [Bind.bind, Except.bind, hget, h], hp⟩

/-- Fold version of the dichotomy over all start services. -/
theorem checkCircAll_cases {svcs : List Service} (hcl : Closed svcs) :
    ∀ l, (∀ s ∈ l, s ∈ svcs) →
      checkCircAll (svcs.length + 1) svcs l = .ok () ∨
        ∃ p, checkCircAll (svcs.length + 1) svcs l = .error (.circularDependency p) ∧
          ¬p.Nodup := by
  intro l
  induction l with
  | nil => intro _; exact Or.inl rfl
  | cons s rest ih =>
    intro hsub
    rcases checkCirc_cases hcl (svcs.length + 1) s [] (hsub s (List.mem_cons_self s rest))
      (by simp) (by simp) (by simp) with h | ⟨p, h, hp⟩
    · rcases ih (fun t ht => hsub t (List.mem_cons_of_mem _ ht)) with h' | ⟨p, h', hp⟩
      · exact Or.inl (by simp [checkCircAll, Bind.bind, Except.bind, h, h'])
      · exact Or.inr ⟨p, by simp [checkCircAll, Bind.bind, Except.bind, h, h'], hp⟩
    · exact Or.inr ⟨p, by simp [checkCircAll, Bind.bind, Except.bind, h], hp⟩

/-- If the cycle scan passes, the scan from each start service passed. -/
theorem checkCircAll_ok_forall {fuel : Nat} {svcs : List Service} :
    ∀ l, checkCircAll fuel svcs l = .ok () → ∀ s ∈ l, checkCirc fuel svcs s [] = .ok () := by
  intro l
  induction l with
  | nil => intro _ s hs; cases hs
  | cons s rest ih =>
    intro h t ht
    simp only [checkCircAll] at h
    obtain ⟨a, ha, hrest⟩ := bind_ok h
    rcases List.mem_cons.mp ht with rfl | ht'
    · cases a; exact ha
    · exact ih hrest t ht'

/-- Walking any dependency chain that ends at a name already on the carried
path makes `check_circular` fail. -/
theorem checkCirc_fails_of_reaches {svcs : List Service} {m : String} :
    ∀ {a : String}, Relation.ReflTransGen (EdgeDep svcs) a m →
      ∀ fuel path (t : Service), svcOf svcs a = some t → m ∈ path →
      checkCirc fuel svcs t path ≠ .ok () := by
  intro a h
  induction h using Relation.ReflTransGen.head_induction_on with
  | refl =>
    intro fuel path t hsv hm hok
    match fuel with
    | 0 => cases hok
    | fuel + 1 =>
      have htn : t.name = m := (svcOf_eq_some hsv).2
      simp only [checkCirc] at hok
      rw [if_pos (htn ▸ hm)] at hok
      cases hok
  | head hstep hrest ih =>
    rename_i a' c
    intro fuel path t hsv hm hok
    match fuel with
    | 0 => cases hok
    | fuel + 1 =>
      obtain ⟨s', hsv', hc⟩ := hstep
      have hts : t = s' := by
        rw [hsv] at hsv'
        exact Option.some.inj hsv'
      subst hts
      simp only [checkCirc] at hok
      by_cases hmem : t.name ∈ path
      · rw [if_pos hmem] at hok
        cases hok
      · rw [if_neg hmem] at hok
        have hbody := circDepsGo_ok_forall _ hok c hc
        obtain ⟨ds, hget, hrun⟩ := bind_ok hbody
        have hdv : svcOf svcs c = some ds := getService_ok_svcOf hget
        exact ih fuel (path ++ [t.name]) ds hdv
          (List.mem_append.mpr (Or.inl hm)) hrun

/-- C6: (general part) for every dependency-closed service set containing a
cycle — a name with a nonempty dependency chain back to itself —
`_validate_dependencies` (and therefore `ServiceManager` construction,
which runs it before anything else) raises a cyclic-dependency error whose
reported path closes on a repeated name, regardless of which services the
traversal starts from; hence no order is ever produced from such a set.
(Concrete part) for the two-service cycle `a ↔ b` of Example B, in either
descriptor order — hence regardless of which node the traversal reaches
first — the reported path walks the cycle and mentions both services. -/
theorem validate_raises_on_cycle :
    (∀ svcs : List Service, Closed svcs → ∀ n, Relation.TransGen (EdgeDep svcs) n n →
      ∃ p, validateDependencies svcs = .error (.circularDependency p) ∧ ¬p.Nodup) ∧
    (validateDependencies [⟨"a", ["b"]⟩, ⟨"b", ["a"]⟩] =
        .error (.circularDependency ["a", "b", "a"]) ∧
      validateDependencies [⟨"b", ["a"]⟩, ⟨"a", ["b"]⟩] =
        .error (.circularDependency ["b", "a", "b"]) ∧
      "a" ∈ (["a", "b", "a"] : List String) ∧ "b" ∈ (["a", "b", "a"] : List String) ∧
      "a" ∈ (["b", "a", "b"] : List String) ∧ "b" ∈ (["b", "a", "b"] : List String)) := by
  constructor
  · intro svcs hcl n hcyc
    rcases Relation.TransGen.head'_iff.mp hcyc with ⟨c, hstep, hrest⟩
    obtain ⟨s0, hsv0, hc0⟩ := hstep
    have hs0 : s0 ∈ svcs := (svcOf_eq_some hsv0).1
    have hs0n : s0.name = n := (svcOf_eq_some hsv0).2
    -- the scan started at `s0` cannot pass
    have hfail : checkCirc (svcs.length + 1) svcs s0 [] ≠ .ok () := by
      intro hok
      simp only [checkCirc] at hok
      rw [if_neg (by simp)] at hok
      have hbody := circDepsGo_ok_forall _ hok c hc0
      obtain ⟨ds, hget, hrun⟩ := bind_ok hbody
      have hdv : svcOf svcs c = some ds := getService_ok_svcOf hget
      exact checkCirc_fails_of_reaches hrest (svcs.length) ([] ++ [s0.name]) ds hdv
        (by simp [hs0n]) hrun
    have hphase2 := checkCircAll_cases hcl svcs (fun _ h => h)
    rcases hphase2 with hok2 | ⟨p, herr, hp⟩
    · exact absurd (checkCircAll_ok_forall svcs hok2 s0 hs0) hfail
    · refine ⟨p, ?_, hp⟩
      unfold validateDependencies
      rw [checkUnknown_ok hcl svcs (fun _ h => h)]
      simpa [Bind.bind, Except.bind] using herr
  · exact ⟨rfl, rfl, by decide, by decide, by decide, by decide⟩

/-- Cyclic two-service set used as witness input. -/
def exCycle : List Service := [⟨"a", ["b"]⟩, ⟨"b", ["a"]⟩]

/-- Witness for `validate_raises_on_cycle` at the concrete two-node cycle
(Example B of the specification). -/
theorem validate_raises_on_cycle_witness :
    (∃ p, validateDependencies exCycle = .error (.circularDependency p) ∧ ¬p.Nodup) ∧
    validateDependencies exCycle = .error (.circularDependency ["a", "b", "a"]) := by
  constructor
  · refine validate_raises_on_cycle.1 exCycle (by unfold Closed; decide) "a" ?_
    have h1 : Relation.TransGen (EdgeDep exCycle) "a" "b" :=
      Relation.TransGen.single ⟨⟨"a", ["b"]⟩, by decide, by decide⟩
    have h2 : Relation.TransGen (EdgeDep exCycle) "b" "a" :=
      Relation.TransGen.single ⟨⟨"b", ["a"]⟩, by decide, by decide⟩
    exact Relation.TransGen.trans h1 h2
  · exact validate_raises_on_cycle.2.1

/-! ## Subset ascending order and the specific-operation entry points -/

/-- The dependency loop of `_get_start_order_for_specific`: each dependency
is fetched with `get_service` first, then skipped if already started. -/
def spDepsGo (f : String → StartState → Except Err StartState) :
    List String → StartState → Except Err StartState
  | [], st => .ok st
  | dep :: rest, st => do
    let st' ← f dep st
    spDepsGo f rest st'

/-- `add_service` of `_get_start_order_for_specific`: dependencies first,
then the service itself — a singleton group when it has dependencies,
otherwise the `no_deps_services` list — and in both cases it joins
`started_services`. -/
def addServiceSp : Nat → List Service → Service → StartState → Except Err StartState
  | 0, _, _, _ => .error .outOfFuel
  | fuel + 1, svcs, s, st =>
    if s.name ∈ st.started then .ok st
    else do
      let st' ← spDepsGo (fun dep acc => do
          let ds ← getService svcs dep
          if ds.name ∈ acc.started then pure acc
          else addServiceSp fuel svcs ds acc) s.dependsOn st
      if s.name ∈ st'.started then .ok st'
      else if s.dependsOn ≠ [] then
        .ok { st' with order := st'.order ++ [[s.name]], started := st'.started ++ [s.name] }
      else
        .ok { st' with noDeps := st'.noDeps ++ [s.name], started := st'.started ++ [s.name] }

/-- Deduplication keeping first occurrences (used to determinise Python's
`set` of requested names plus their direct dependencies; its iteration
order is unspecified in Python, and nothing proved below depends on the
particular order chosen). -/
def dedupFirst (seen : List String) : List String → List String
  | [] => []
  | x :: rest =>
    if x ∈ seen then dedupFirst seen rest
    else x :: dedupFirst (seen ++ [x]) rest

/-- `service_names_set`: the requested names plus their direct
dependencies. -/
def specificNameSet (specific : List Service) : List String :=
  dedupFirst [] (specific.map Service.name ++ specific.flatMap Service.dependsOn)

/-- The `for service_name in service_names_set` loop. -/
def spNamesGo (fuel : Nat) (svcs : List Service) : List String → StartState → Except Err StartState
  | [], st => .ok st
  | n :: rest, st => do
    let s ← getService svcs n
    let st' ← addServiceSp fuel svcs s st
    spNamesGo fuel svcs rest st'

/-- `_get_start_order_for_specific`. -/
def getStartOrderSpecificF (fuel : Nat) (svcs : List Service) (specific : List Service) :
    Except Err (List (List String)) := do
  let st ← spNamesGo fuel svcs (specificNameSet specific) ⟨[], [], []⟩
  if st.noDeps = [] then .ok st.order else .ok (st.noDeps :: st.order)

/-- Collaborator-boundary calls the `ServiceManager` execution loops make,
one marker per service: `service.installer.install()`,
`service.start_service()` (whose first action is the reachability probe),
`service.stop_service()` (whose first action is the reachability probe),
and `service.uninstall()`. -/
inductive MEff where
  | installCall (n : String)
  | startCall (n : String)
  | stopCall (n : String)
  | uninstallCall (n : String)
deriving Repr, DecidableEq

/-- `install_specific_services`: resolve every requested name (the list
comprehension over `get_service` — the first unknown name raises before
anything else), compute the subset ascending order, then walk it invoking
each service's installer. -/
def installSpecificServices (svcs : List Service) (names : List String) :
    Except Err (List MEff) := do
  let specific ← names.mapM (getService svcs)
  let ord ← getStartOrderSpecificF (svcs.length + 1) svcs specific
  .ok (ord.flatten.map MEff.installCall)

/-- `start_specific_services`. -/
def startSpecificServices (svcs : List Service) (names : List String) :
    Except Err (List MEff) := do
  let specific ← names.mapM (getService svcs)
  let ord ← getStartOrderSpecificF (svcs.length + 1) svcs specific
  .ok (ord.flatten.map MEff.startCall)

/-- `stop_specific_services`. -/
def stopSpecificServices (svcs : List Service) (names : List String) :
    Except Err (List MEff) := do
  let specific ← names.mapM (getService svcs)
  let ord ← getStopOrderSpecificF (svcs.length + 1) svcs specific ⟨[], []⟩
  .ok (ord.flatten.map MEff.stopCall)

/-- `uninstall_specific_services`. -/
def uninstallSpecificServices (svcs : List Service) (names : List String) :
    Except Err (List MEff) := do
  let specific ← names.mapM (getService svcs)
  let ord ← getStopOrderSpecificF (svcs.length + 1) svcs specific ⟨[], []⟩
  .ok (ord.flatten.map MEff.uninstallCall)

/-- Resolving a name list stops at the first unknown name with the
`get_service` error. -/
theorem mapM_getService_error {svcs : List Service} :
    ∀ names : List String, (∃ n ∈ names, svcOf svcs n = none) →
      ∃ m ∈ names, svcOf svcs m = none ∧
        names.mapM (getService svcs) = (.error (.serviceNotFound m) : Except Err (List Service)) := by
  intro names
  induction names with
  | nil => rintro ⟨n, hn, -⟩; cases hn
  | cons n rest ih =>
    rintro ⟨x, hx, hxnone⟩
    cases hn : svcOf svcs n with
    | none =>
      refine ⟨n, List.mem_cons_self n rest, hn, ?_⟩
      have hget : getService svcs n = .error (.serviceNotFound n) := by
        unfold getService
        unfold svcOf at hn
        rw [hn]
      rw [List.mapM_cons, hget]
      rfl
    | some s =>
      have hx' : x ∈ rest := by
        rcases List.mem_cons.mp hx with rfl | h'
        · rw [hn] at hxnone
          cases hxnone
        · exact h'
      obtain ⟨m, hm, hmnone, hmap⟩ := ih ⟨x, hx', hxnone⟩
      refine ⟨m, List.mem_cons_of_mem _ hm, hmnone, ?_⟩
      have hget : getService svcs n = .ok s := by
        unfold getService
        unfold svcOf at hn
        rw [hn]
      rw [List.mapM_cons, hget, hmap]
      rfl

/-- C8: when any requested name is absent from the loaded service set, all
four specific operations (install, start, stop, uninstall) fail with the
unknown-service error of the first absent name.  Each operation's
collaborator trace exists only on the `.ok` path, which is reached only
after every requested name resolves, so the failure precedes every
installer/config/probe invocation and no side effect occurs. -/
theorem specificOps_unknown_fails_early (svcs : List Service) (names : List String)
    (h : ∃ n ∈ names, svcOf svcs n = none) :
    ∃ m ∈ names, svcOf svcs m = none ∧
      installSpecificServices svcs names = .error (.serviceNotFound m) ∧
      startSpecificServices svcs names = .error (.serviceNotFound m) ∧
      stopSpecificServices svcs names = .error (.serviceNotFound m) ∧
      uninstallSpecificServices svcs names = .error (.serviceNotFound m) := by
  obtain ⟨m, hm, hmnone, hmap⟩ := mapM_getService_error names h
  refine ⟨m, hm, hmnone, ?_, ?_, ?_, ?_⟩
  · unfold installSpecificServices
    rw [hmap]
    rfl
  · unfold startSpecificServices
    rw [hmap]
    rfl
  · unfold stopSpecificServices
    rw [hmap]
    rfl
  · unfold uninstallSpecificServices
    rw [hmap]
    rfl

/-- Witness for `specificOps_unknown_fails_early`: requesting the unknown
name `ghost` alongside a known one on Example A. -/
theorem specificOps_unknown_fails_early_witness :
    ∃ m ∈ ["db", "ghost"], svcOf exampleA m = none ∧
      installSpecificServices exampleA ["db", "ghost"] = .error (.serviceNotFound m) ∧
      startSpecificServices exampleA ["db", "ghost"] = .error (.serviceNotFound m) ∧
      stopSpecificServices exampleA ["db", "ghost"] = .error (.serviceNotFound m) ∧
      uninstallSpecificServices exampleA ["db", "ghost"] = .error (.serviceNotFound m) :=
  specificOps_unknown_fails_early exampleA ["db", "ghost"] ⟨"ghost", by decide, by decide⟩

/-! ## `_load_services` and the `Service.__init__` keyword mismatch -/

/-- The keyword parameters `Service.__init__` declares
(`automata/service.py`, lines 115–124): `self` aside — `name`, `port`,
`version`, `logs_dir`, `installer`, `configs`, `start_cmd`.  There is no
`depends_on` parameter and no `**kwargs`. -/
def serviceInitParams : List String :=
  ["name", "port", "version", "logs_dir", "installer", "configs", "start_cmd"]

/-- The keyword arguments `_load_services` passes to `Service(...)`
(`automata/service_manager.py`, lines 68–77). -/
def loadServicesCallKwargs : List String :=
  ["name", "port", "version", "logs_dir", "installer", "configs", "start_cmd", "depends_on"]

/-- Python-level exceptions raised during `_load_services`. -/
inductive PyErr where
  /-- `TypeError: __init__() got an unexpected keyword argument kw`. -/
  | typeErrorUnexpectedKwarg (kw : String)
  /-- `ValueError(f"Invalid installer type: {ty}")`. -/
  | valueErrorInvalidInstallerType (ty : String)
deriving Repr, DecidableEq

/-- A YAML service entry as `_load_services` consumes it (installer details
and other scalar fields beyond the type tag do not influence whether the
`Service(...)` call itself is accepted). -/
structure ServiceEntry where
  name : String
  installerType : String
  dependsOn : List String
deriving Repr, DecidableEq

def knownInstallerTypes : List String := ["binary", "brew", "local_bin"]

/-- One iteration of the `_load_services` loop: select the installer by the
type tag (an unknown tag raises `ValueError`), then perform the
`Service(name=..., ..., depends_on=...)` keyword call.  Python rejects a
keyword call whose argument names are not all declared parameters with a
`TypeError` before the constructor body runs. -/
def mkService (e : ServiceEntry) : Except PyErr Service :=
  if e.installerType ∈ knownInstallerTypes then
    match loadServicesCallKwargs.find? (fun k => !(serviceInitParams.contains k)) with
    | some kw => .error (.typeErrorUnexpectedKwarg kw)
    | none => .ok ⟨e.name, e.dependsOn⟩
  else .error (.valueErrorInvalidInstallerType e.installerType)

/-- `_load_services` over the parsed entries. -/
def loadServices (entries : List ServiceEntry) : Except PyErr (List Service) :=
  entries.mapM mkService

/-- C4 (refuting theorem): `_load_services` passes the keyword argument
`depends_on`, which `Service.__init__` does not declare, so for every
configuration with at least one service entry — however well-formed its
installer type, variables and dependencies — construction raises
`TypeError` at the first entry and never produces any `Service`.  The
claim that construction succeeds and records the dependency names is
therefore a bug in the code: `_validate_dependencies` and the ordering
methods all read `service.depends_on`, which `Service.__init__` would not
even store. -/
theorem loadServices_typeError (entries : List ServiceEntry)
    (hknown : ∀ e ∈ entries, e.installerType ∈ knownInstallerTypes)
    (hne : entries ≠ []) :
    "depends_on" ∈ loadServicesCallKwargs ∧
    "depends_on" ∉ serviceInitParams ∧
    loadServices entries = .error (.typeErrorUnexpectedKwarg "depends_on") := by
  refine ⟨by decide, by decide, ?_⟩
  match entries, hne with
  | e :: rest, _ =>
    have hmk : mkService e = .error (.typeErrorUnexpectedKwarg "depends_on") := by
      unfold mkService
      rw [if_pos (hknown e (List.mem_cons_self e rest))]
      rfl
    unfold loadServices
    rw [List.mapM_cons, hmk]
    rfl

/-- Witness for `loadServices_typeError`: a single well-formed binary-type
entry. -/
theorem loadServices_typeError_witness :
    "depends_on" ∈ loadServicesCallKwargs ∧
    "depends_on" ∉ serviceInitParams ∧
    loadServices [⟨"db", "binary", []⟩] = .error (.typeErrorUnexpectedKwarg "depends_on") :=
  loadServices_typeError [⟨"db", "binary", []⟩] (by decide) (by decide)

/-! ## Installers (`automata/install.py`)

The filesystem is abstracted to the facts the installer code queries:
which paths exist as plain entries and which are symlinks with which
target.  `os.path.exists` follows a link one level (a link is "existing"
when its target is a plain entry); symlink chains do not occur in the
installer's own writes.  External mechanics the code only delegates
(download transfer, archive contents, directory listing, command exit
status) are oracle inputs in `IEnv`.  Collaborator *mutations* — the calls
claim C5 is about — are recorded as an `IEff` trace. -/

structure FS where
  files : List String
  links : List (String × String)
deriving Repr, DecidableEq

/-- `os.path.islink`. -/
def FS.islink (fs : FS) (p : String) : Bool :=
  (fs.links.lookup p).isSome

/-- `os.readlink` (empty string when not a link; only queried under an
`islink` guard, matching the code). -/
def FS.readlink (fs : FS) (p : String) : String :=
  (fs.links.lookup p).getD ""

/-- `os.path.exists`: true for a plain entry, and for a symlink whose
target is a plain entry. -/
def FS.pexists (fs : FS) (p : String) : Bool :=
  p ∈ fs.files ||
    (match fs.links.lookup p with
     | some t => t ∈ fs.files
     | none => false)

/-- `os.path.join` for the simple relative components the installers use. -/
def joinPath (a b : String) : String := a ++ "/" ++ b

/-- The base `Installer` state: service name, install path, bin path, the
executable-name → relative-source-path mapping (a Python `dict`, iterated
in insertion order), and the optional post-install command.
(`expandvars_recursive` applied to the paths at construction is treated as
already performed.) -/
structure Installer where
  serviceName : String
  installPath : String
  binPath : String
  executables : List (String × String)
  postInstallCmd : Option String
deriving Repr, DecidableEq

/-- `Installer.invalid_executables`: an executable is invalid when its
bin-path entry is a symlink whose target does not exist or does not point
at the expected source, or is not a symlink and does not exist at all. -/
def invalidExecutables (inst : Installer) (fs : FS) : List String :=
  (inst.executables.filter (fun pr =>
    let path := joinPath inst.binPath pr.1
    let src := joinPath inst.installPath pr.2
    if fs.islink path then
      if !(fs.pexists (fs.readlink path)) then true
      else if fs.readlink path ≠ src then true
      else false
    else if !(fs.pexists path) then true
    else false)).map (·.1)

/-- `Installer.is_installed`: no invalid executables. -/
def isInstalled (inst : Installer) (fs : FS) : Bool :=
  (invalidExecutables inst fs).isEmpty

/-- Errors the installer methods raise themselves (beyond re-raised
collaborator failures, which are outside this model's scope). -/
inductive IErr where
  /-- `Exception(f"Executable source path: {p}. Does not exist.")`. -/
  | exeSourceMissing (p : String)
  /-- `ValueError` from `run_command_with_logs` on a nonzero exit. -/
  | commandFailed (c : String)
deriving Repr, DecidableEq

/-- Collaborator mutation calls. -/
inductive IEff where
  | mkdir (p : String)
  | download (url dest : String)
  | extract (archive dest : String)
  | removeFile (p : String)
  | symlink (src dst : String)
  | runCmd (c : String)
  | copyItem (src dst : String)
deriving Repr, DecidableEq

/-- Oracle for external mechanics. -/
structure IEnv where
  /-- Paths created by extracting the downloaded archive. -/
  extracted : List String
  /-- `os.listdir(source_path)` for `BinInstaller`. -/
  listing : List String
  /-- Whether a shell command run by `run_command_with_logs` exits 0. -/
  cmdOk : String → Bool

/-- `ensure_dir_exists`. -/
def ensureDir (fs : FS) (p : String) : FS × List IEff :=
  if fs.pexists p then (fs, [])
  else ({ fs with files := p :: fs.files }, [.mkdir p])

/-- `Installer._create_symlinks`: for each executable, require the source
to exist, remove any existing entry at the bin path, then link it. -/
def createSymlinks (inst : Installer) : List (String × String) → FS → Except IErr (FS × List IEff)
  | [], fs => .ok (fs, [])
  | (exe, rel) :: rest, fs =>
    let src := joinPath inst.installPath rel
    let dst := joinPath inst.binPath exe
    if !(fs.pexists src) then .error (.exeSourceMissing src)
    else
      let removed : FS × List IEff :=
        if fs.pexists dst || fs.islink dst then
          ({ files := fs.files.erase dst,
             links := fs.links.filter (fun pr => pr.1 ≠ dst) }, [.removeFile dst])
        else (fs, [])
      let fs₂ : FS := { removed.1 with links := (dst, src) :: removed.1.links }
      match createSymlinks inst rest fs₂ with
      | .ok (fs₃, effs) => .ok (fs₃, removed.2 ++ [.symlink src dst] ++ effs)
      | .error e => .error e

/-- `Installer.post_install`: nothing when no command is declared;
otherwise run it (the command execution itself is a mutation; a nonzero
exit raises). -/
def postInstall (inst : Installer) (env : IEnv) : Except IErr (List IEff) :=
  match inst.postInstallCmd with
  | none => .ok []
  | some c => if env.cmdOk c then .ok [.runCmd c] else .error (.commandFailed c)

/-- `os.path.basename` for the URL (last `/`-separated component). -/
def basename (s : String) : String :=
  (s.splitOn "/").getLastD s

structure BinaryInstaller where
  toInstaller : Installer
  downloadUrl : String
  isArchive : Bool
deriving Repr, DecidableEq

/-- `BinaryInstaller.install`: no-op when installed; otherwise ensure the
two directories, download, extract when an archive, create symlinks,
remove the archive file, run the post-install hook. -/
def BinaryInstaller.install (b : BinaryInstaller) (fs : FS) (env : IEnv) :
    Except IErr (List IEff) :=
  if isInstalled b.toInstaller fs then .ok []
  else
    let d₁ := ensureDir fs b.toInstaller.installPath
    let d₂ := ensureDir d₁.1 b.toInstaller.binPath
    let archivePath := joinPath b.toInstaller.installPath (basename b.downloadUrl)
    let fs₃ : FS := { d₂.1 with files := archivePath :: d₂.1.files }
    let ex : FS × List IEff :=
      if b.isArchive then
        ({ fs₃ with files := env.extracted ++ fs₃.files },
          [.extract archivePath b.toInstaller.installPath])
      else (fs₃, [])
    match createSymlinks b.toInstaller b.toInstaller.executables ex.1 with
    | .error e => .error e
    | .ok (fs₅, e₅) =>
      let rm : List IEff :=
        if fs₅.pexists archivePath then [.removeFile archivePath] else []
      match postInstall b.toInstaller env with
      | .error e => .error e
      | .ok e₇ =>
        .ok (d₁.2 ++ d₂.2 ++ [.download b.downloadUrl archivePath] ++ ex.2 ++ e₅ ++ rm ++ e₇)

structure BrewInstaller where
  toInstaller : Installer
  packageName : String
deriving Repr, DecidableEq

/-- `BrewInstaller.install`: no-op when installed; otherwise ensure the bin
directory, `brew install`, create symlinks, post-install hook. -/
def BrewInstaller.install (b : BrewInstaller) (fs : FS) (env : IEnv) :
    Except IErr (List IEff) :=
  if isInstalled b.toInstaller fs then .ok []
  else
    let d₁ := ensureDir fs b.toInstaller.binPath
    let cmd := "brew install " ++ b.packageName
    if !(env.cmdOk cmd) then .error (.commandFailed cmd)
    else
      match createSymlinks b.toInstaller b.toInstaller.executables d₁.1 with
      | .error e => .error e
      | .ok (_, e₂) =>
        match postInstall b.toInstaller env with
        | .error e => .error e
        | .ok e₃ => .ok (d₁.2 ++ [.runCmd cmd] ++ e₂ ++ e₃)

structure BinInstaller where
  /-- The base fields; the `BinInstaller` constructor never passes a
  post-install command, so `postInstallCmd` is `none` for this variant. -/
  toInstaller : Installer
  sourcePath : String
deriving Repr, DecidableEq

/-- `BinInstaller.install`: NO `is_installed` guard — it unconditionally
ensures the install directory, copies every item of the source directory,
and re-creates the symlinks. -/
def BinInstaller.install (b : BinInstaller) (fs : FS) (env : IEnv) :
    Except IErr (List IEff) :=
  let d₁ := ensureDir fs b.toInstaller.installPath
  let copies := env.listing.map (fun item =>
    IEff.copyItem (joinPath b.sourcePath item) (joinPath b.toInstaller.installPath item))
  let fs₂ : FS := { d₁.1 with
    files := env.listing.map (fun item => joinPath b.toInstaller.installPath item)
      ++ d₁.1.files }
  match createSymlinks b.toInstaller b.toInstaller.executables fs₂ with
  | .error e => .error e
  | .ok (_, e₃) =>
    match postInstall b.toInstaller env with
    | .error e => .error e
    | .ok e₄ => .ok (d₁.2 ++ copies ++ e₃ ++ e₄)

/-- Already-installed local-bin service used as the failing input for C5:
one executable, validly symlinked. -/
def exInstaller : Installer :=
  ⟨"svc", "/opt/svc", "/bin", [("svc", "rel")], none⟩

def exFS : FS :=
  ⟨["/opt/svc", "/bin", "/opt/svc/rel"], [("/bin/svc", "/opt/svc/rel")]⟩

def exBinInstaller : BinInstaller := ⟨exInstaller, "/src"⟩

def exEnv : IEnv := ⟨[], [], fun _ => true⟩

/-- C5: the already-installed no-op contract holds for the binary and brew
installers — when `is_installed` is true, `install` returns successfully
with an empty mutation trace — but NOT for the local-bin variant:
`BinInstaller.install` has no `is_installed` guard, and on an
already-installed service it still removes and re-creates the bin symlink
(and would copy the source directory's contents), contradicting the base
class's documented contract ("If service is already installed does
nothing"). -/
theorem install_skips_when_installed :
    (∀ (b : BinaryInstaller) (fs : FS) (env : IEnv),
      isInstalled b.toInstaller fs = true → BinaryInstaller.install b fs env = .ok []) ∧
    (∀ (b : BrewInstaller) (fs : FS) (env : IEnv),
      isInstalled b.toInstaller fs = true → BrewInstaller.install b fs env = .ok []) ∧
    (isInstalled exBinInstaller.toInstaller exFS = true ∧
      BinInstaller.install exBinInstaller exFS exEnv =
        .ok [.removeFile "/bin/svc", .symlink "/opt/svc/rel" "/bin/svc"] ∧
      ([IEff.removeFile "/bin/svc", IEff.symlink "/opt/svc/rel" "/bin/svc"] : List IEff) ≠ []) := by
  refine ⟨?_, ?_, ?_, ?_, ?_⟩
  · intro b fs env h
    unfold BinaryInstaller.install
    rw [if_pos h]
  · intro b fs env h
    unfold BrewInstaller.install
    rw [if_pos h]
  · rfl
  · rfl
  · decide

/-- Witness for the hypotheses of `install_skips_when_installed`: the
binary and brew no-op parts applied at an already-installed concrete
installer. -/
theorem install_skips_when_installed_witness :
    BinaryInstaller.install ⟨exInstaller, "http://x/y.tar.gz", true⟩ exFS exEnv = .ok [] ∧
    BrewInstaller.install ⟨exInstaller, "pkg"⟩ exFS exEnv = .ok [] :=
  ⟨install_skips_when_installed.1 ⟨exInstaller, "http://x/y.tar.gz", true⟩ exFS exEnv rfl,
   install_skips_when_installed.2.1 ⟨exInstaller, "pkg"⟩ exFS exEnv rfl⟩

/-! ## `Service.start_service` (`automata/service.py`)

The collaborators `start_service` touches are abstracted to an effect
trace: the reachability probe (`is_service_open`), the installer call, one
config application per declared config, the log-directory creation, the
detached launch (`subprocess.Popen`), the fixed 3-second sleeps of the
confirmation loop, and the final warning.  Successive probe outcomes come
from the oracle `reachable`; collaborator failure modes (installer or
config exceptions) are outside this claim's scope.  The function is total:
the path that exhausts the retry budget logs a warning and returns — it
raises nothing. -/

structure LcConfig where
  src : String
  dest : String
deriving Repr, DecidableEq

structure LcService where
  name : String
  port : Nat
  logsDir : String
  startCmd : String
  configs : List LcConfig
deriving Repr, DecidableEq

inductive SEff where
  | probe (result : Bool)
  | installerInstall
  | applyConfig (src dest : String)
  | ensureLogsDir (p : String)
  | launch (cmd : String)
  | sleep (secs : Nat)
  | warnNotRunning
deriving Repr, DecidableEq

structure ProbeEnv where
  /-- Outcome of the k-th reachability probe of this call (0 = the initial
  already-running check). -/
  reachable : Nat → Bool

/-- The `for _ in range(5)` confirmation loop: probe; on success log and
return, on failure sleep three seconds; after the fifth failed attempt log
a warning.  `k` counts remaining iterations, `i` numbers the probes. -/
def pollLoop (env : ProbeEnv) : Nat → Nat → List SEff
  | 0, _ => [.warnNotRunning]
  | k + 1, i =>
    if env.reachable i then [.probe true]
    else [.probe false, .sleep 3] ++ pollLoop env k (i + 1)

/-- `Service.start_service`. -/
def startService (svc : LcService) (env : ProbeEnv) : List SEff :=
  if env.reachable 0 then [.probe true]
  else
    [SEff.probe false, SEff.installerInstall] ++
    svc.configs.map (fun c => SEff.applyConfig c.src c.dest) ++
    [SEff.ensureLogsDir svc.logsDir, SEff.launch svc.startCmd] ++
    pollLoop env 5 1

/-- Recognisers used to count probes and sleeps in a trace. -/
def isProbe : SEff → Bool
  | .probe _ => true
  | _ => false

def isSleep : SEff → Bool
  | .sleep _ => true
  | _ => false

theorem pollLoop_counts (env : ProbeEnv) :
    ∀ k i, (pollLoop env k i).countP isProbe ≤ k ∧
      (pollLoop env k i).countP isSleep ≤ k ∧
      ((pollLoop env k i).countP isSleep) * 3 ≤ k * 3 := by
  intro k
  induction k with
  | zero => intro i; simp [pollLoop, List.countP, List.countP.go, isProbe, isSleep]
  | succ k ih =>
    intro i
    by_cases h : env.reachable i = true
    · simp [pollLoop, h, List.countP, List.countP.go, isProbe, isSleep]
    · have h' : env.reachable i = false := by simpa using h
      obtain ⟨ih1, ih2, ih3⟩ := ih (i + 1)
      simp only [pollLoop, h', Bool.false_eq_true, if_false, List.countP_append]
      refine ⟨?_, ?_, ?_⟩ <;>
        (simp [List.countP_cons, List.countP_nil, isProbe, isSleep]; try omega)

/-- C9: behaviour of `start_service`.
(1) When the first probe finds the port reachable the call is a no-op: the
trace is just that probe — no install, config, launch, sleep or warning.
(2) When the port never becomes reachable, the call installs, applies each
config, launches, then performs exactly 5 further probes separated by
fixed 3-second sleeps, and ends with a warning — returning normally (the
return type carries no error case; nothing is raised).
(3) For every oracle, the whole call makes at most 6 probes and at most 5
sleeps: the confirmation budget is bounded. -/
theorem startService_poll_bounded :
    (∀ (svc : LcService) (env : ProbeEnv), env.reachable 0 = true →
      startService svc env = [.probe true]) ∧
    (∀ (svc : LcService) (env : ProbeEnv), env.reachable 0 = false →
      (∀ i, 1 ≤ i → i ≤ 5 → env.reachable i = false) →
      startService svc env =
        [SEff.probe false, SEff.installerInstall] ++
        svc.configs.map (fun c => SEff.applyConfig c.src c.dest) ++
        [SEff.ensureLogsDir svc.logsDir, SEff.launch svc.startCmd] ++
        [.probe false, .sleep 3, .probe false, .sleep 3, .probe false, .sleep 3,
         .probe false, .sleep 3, .probe false, .sleep 3, .warnNotRunning]) ∧
    (∀ (svc : LcService) (env : ProbeEnv),
      (startService svc env).countP isProbe ≤ 6 ∧
      (startService svc env).countP isSleep ≤ 5) := by
  refine ⟨?_, ?_, ?_⟩
  · intro svc env h
    simp [startService, h]
  · intro svc env h0 hrest
    have e1 := hrest 1 (by omega) (by omega)
    have e2 := hrest 2 (by omega) (by omega)
    have e3 := hrest 3 (by omega) (by omega)
    have e4 := hrest 4 (by omega) (by omega)
    have e5 := hrest 5 (by omega) (by omega)
    simp [startService, pollLoop, h0, e1, e2, e3, e4, e5]
  · intro svc env
    by_cases h : env.reachable 0 = true
    · simp [startService, h, List.countP, List.countP.go, isProbe, isSleep]
    · have h' : env.reachable 0 = false := by simpa using h
      obtain ⟨hp, hs, -⟩ := pollLoop_counts env 5 1
      have hmap_probe : (svc.configs.map (fun c => SEff.applyConfig c.src c.dest)).countP
          isProbe = 0 := by
        rw [List.countP_eq_zero]
        rintro e he
        obtain ⟨c, -, rfl⟩ := List.mem_map.mp he
        simp [isProbe]
      have hmap_sleep : (svc.configs.map (fun c => SEff.applyConfig c.src c.dest)).countP
          isSleep = 0 := by
        rw [List.countP_eq_zero]
        rintro e he
        obtain ⟨c, -, rfl⟩ := List.mem_map.mp he
        simp [isSleep]
      constructor
      · simp only [startService, h', Bool.false_eq_true, if_false, List.countP_append,
          hmap_probe]
        simp [List.countP_cons, List.countP_nil, isProbe]
        omega
      · simp only [startService, h', Bool.false_eq_true, if_false, List.countP_append,
          hmap_sleep]
        simp [List.countP_cons, List.countP_nil, isSleep]
        omega

/-- Witness for `startService_poll_bounded`: a concrete service against an
always-reachable oracle (part 1) and a never-reachable oracle (part 2). -/
theorem startService_poll_bounded_witness :
    startService ⟨"db", 5432, "/logs", "run-db", [⟨"/a", "/b"⟩]⟩ ⟨fun _ => true⟩ =
      [.probe true] ∧
    startService ⟨"db", 5432, "/logs", "run-db", [⟨"/a", "/b"⟩]⟩ ⟨fun _ => false⟩ =
      [SEff.probe false, SEff.installerInstall] ++
      [SEff.applyConfig "/a" "/b"] ++
      [SEff.ensureLogsDir "/logs", SEff.launch "run-db"] ++
      [.probe false, .sleep 3, .probe false, .sleep 3, .probe false, .sleep 3,
       .probe false, .sleep 3, .probe false, .sleep 3, .warnNotRunning] :=
  ⟨startService_poll_bounded.1 ⟨"db", 5432, "/logs", "run-db", [⟨"/a", "/b"⟩]⟩
      ⟨fun _ => true⟩ rfl,
   startService_poll_bounded.2.1 ⟨"db", 5432, "/logs", "run-db", [⟨"/a", "/b"⟩]⟩
      ⟨fun _ => false⟩ rfl (fun _ _ _ => rfl)⟩

/-! ## `expandvars_recursive` (`automata/service.py`)

Strings are rendered as `List Char`.  `re.search` of the pattern
`\x5c$\x5c\x7b([^\x7d]+)\x5c\x7d` (a dollar, an opening brace, one or more
non-closing-brace characters, a closing brace) returns the leftmost match:
`findMatch` scans for it and splits the string into the part before the
match, the captured variable name and the part after.  One loop iteration
replaces the matched span with the resolved value (context first, then
process environment, `ValueError` when neither resolves); the loop repeats
until no match remains.  The Python loop has no other exit, so its
termination is exactly the eventual success of the fuel-indexed
`expandF`. -/

/-- Capture `[^\x7d]+\x7d` at the current position: the nonempty run of
non-closing-brace characters and the remainder after the closing brace. -/
def takeVar (cs : List Char) : Option (List Char × List Char) :=
  let var := cs.takeWhile (fun c => c ≠ '}')
  let rem := cs.dropWhile (fun c => c ≠ '}')
  if var = [] then none
  else
    match rem with
    | '}' :: suffix => some (var, suffix)
    | _ => none

/-- Prefix a character onto the pre-match part of a found match. -/
def prependMatch (c : Char) : Option (List Char × List Char × List Char) →
    Option (List Char × List Char × List Char)
  | some (pre, var, suffix) => some (c :: pre, var, suffix)
  | none => none

/-- Leftmost match of the substitution pattern: a match starts at the
current position exactly when it begins with `$` followed by `\x7b` and
`takeVar` captures a variable; otherwise the scan moves one character
right. -/
def findMatch : List Char → Option (List Char × List Char × List Char)
  | [] => none
  | c :: rest =>
    if c = '$' ∧ rest.head? = some '{' then
      match takeVar rest.tail with
      | some (var, suffix) => some ([], var, suffix)
      | none => prependMatch c (findMatch rest)
    else prependMatch c (findMatch rest)

/-- One-or-more iterations of the `while True` loop of
`expandvars_recursive`, with a fuel bound; `none` models the loop still
running after `fuel` iterations.  The context is an association list (the
string-valued bindings the resolver consults; a non-string context value
would make the Python concatenation fail and is outside the model) and the
process environment an oracle. -/
def expandF (env : List Char → Option (List Char))
    (ctx : List (List Char × List Char)) :
    Nat → List Char → Option (Except (List Char) (List Char))
  | 0, _ => none
  | fuel + 1, value =>
    match findMatch value with
    | none => some (.ok value)
    | some (pre, var, suffix) =>
      match ctx.lookup var with
      | some rep => expandF env ctx fuel (pre ++ rep ++ suffix)
      | none =>
        match env var with
        | some rep => expandF env ctx fuel (pre ++ rep ++ suffix)
        | none => some (.error var)

/-- The loop finishes (returns or raises) within some number of
iterations. -/
def ExpandTerminates (env : List Char → Option (List Char))
    (ctx : List (List Char × List Char)) (value : List Char) : Prop :=
  ∃ fuel, (expandF env ctx fuel value).isSome

/-- The string `"$\x7bA\x7d"`. -/
def selfRef : List Char := ['$', '{', 'A', '}']

/-- A context in which `A` resolves to a value that still contains
`$\x7bA\x7d` — here, to itself. -/
def selfCtx : List (List Char × List Char) := [(['A'], selfRef)]

/-- C10, counterexample: with the context `A = "$\x7bA\x7d"` the loop maps
the value `"$\x7bA\x7d"` back to itself on every iteration, so no amount
of fuel makes `expandF` return: `expandvars_recursive` (and hence
`resolve_variables`, which calls it on every string value) loops forever
on a self-referential binding, refuting termination on every input. -/
theorem expand_diverges_on_self_reference :
    ¬ ExpandTerminates (fun _ => none) selfCtx selfRef := by
  have hall : ∀ fuel, expandF (fun _ => none) selfCtx fuel selfRef = none := by
    intro fuel
    induction fuel with
    | zero => rfl
    | succ f ih =>
      have hstep : expandF (fun _ => none) selfCtx (f + 1) selfRef =
          expandF (fun _ => none) selfCtx f selfRef := rfl
      rw [hstep]
      exact ih
  rintro ⟨fuel, hsome⟩
  rw [hall fuel] at hsome
  simp at hsome

/-- Count of dollar characters, the termination measure of the amended
claim. -/
def countD (v : List Char) : Nat := v.count '$'

theorem dropWhile_head_not {p : Char → Bool} : ∀ {l : List Char} {c : Char} {rest : List Char},
    l.dropWhile p = c :: rest → p c = false := by
  intro l
  induction l with
  | nil => intro c rest h; cases h
  | cons x xs ih =>
    intro c rest h
    rw [List.dropWhile_cons] at h
    by_cases hx : p x = true
    · rw [if_pos hx] at h
      exact ih h
    · have hx' : p x = false := by simpa using hx
      rw [if_neg (by simp [hx'])] at h
      cases h
      exact hx'

theorem takeVar_decomp {cs var suffix : List Char}
    (h : takeVar cs = some (var, suffix)) : cs = var ++ '}' :: suffix := by
  unfold takeVar at h
  by_cases hv : cs.takeWhile (fun c => c ≠ '}') = []
  · rw [if_pos hv] at h
    cases h
  · rw [if_neg hv] at h
    cases hrem : cs.dropWhile (fun c => c ≠ '}') with
    | nil => rw [hrem] at h; cases h
    | cons c₀ suffix₀ =>
      have hc₀ : c₀ = '}' := by
        have := dropWhile_head_not hrem
        simpa using this
      subst hc₀
      rw [hrem] at h
      simp only [Option.some.injEq, Prod.mk.injEq] at h
      obtain ⟨rfl, rfl⟩ := h
      conv_lhs => rw [← List.takeWhile_append_dropWhile (p := fun c => c ≠ '}') (l := cs)]
      rw [hrem]

theorem findMatch_decomp : ∀ {v pre var suffix : List Char},
    findMatch v = some (pre, var, suffix) →
    v = pre ++ '$' :: '{' :: (var ++ '}' :: suffix) := by
  intro v
  induction v with
  | nil => intro pre var suffix h; cases h
  | cons c rest ih =>
    intro pre var suffix h
    simp only [findMatch] at h
    by_cases hcond : c = '$' ∧ rest.head? = some '{'
    · rw [if_pos hcond] at h
      obtain ⟨rfl, hhd⟩ := hcond
      obtain ⟨rest₂, rfl⟩ : ∃ r₂, rest = '{' :: r₂ := by
        cases rest with
        | nil => cases hhd
        | cons x xs =>
          simp only [List.head?] at hhd
          exact ⟨xs, by rw [Option.some.inj hhd]⟩
      cases htv : takeVar ('{' :: rest₂).tail with
      | some pr =>
        obtain ⟨var₀, suffix₀⟩ := pr
        rw [htv] at h
        simp only [Option.some.injEq, Prod.mk.injEq] at h
        obtain ⟨rfl, rfl, rfl⟩ := h
        have hdec := takeVar_decomp htv
        simp only [List.tail_cons] at hdec
        rw [List.nil_append, hdec]
      | none =>
        rw [htv] at h
        cases hfm : findMatch ('{' :: rest₂) with
        | none => rw [hfm] at h; cases h
        | some tr =>
          obtain ⟨pre₀, var₀, suffix₀⟩ := tr
          rw [hfm] at h
          simp only [prependMatch, Option.some.injEq, Prod.mk.injEq] at h
          obtain ⟨rfl, rfl, rfl⟩ := h
          rw [List.cons_append, ← ih hfm]
    · rw [if_neg hcond] at h
      cases hfm : findMatch rest with
      | none => rw [hfm] at h; cases h
      | some tr =>
        obtain ⟨pre₀, var₀, suffix₀⟩ := tr
        rw [hfm] at h
        simp only [prependMatch, Option.some.injEq, Prod.mk.injEq] at h
        obtain ⟨rfl, rfl, rfl⟩ := h
        rw [List.cons_append, ← ih hfm]

theorem lookup_mem {l : List (List Char × List Char)} {k v : List Char}
    (h : l.lookup k = some v) : (k, v) ∈ l := by
  induction l with
  | nil => cases h
  | cons p rest ih =>
    obtain ⟨k₀, v₀⟩ := p
    cases hbeq : k == k₀ with
    | true =>
      simp only [List.lookup, hbeq, Option.some.injEq] at h
      have hk : k = k₀ := by simpa using hbeq
      rw [hk, h]
      exact List.mem_cons_self _ _
    | false =>
      simp only [List.lookup, hbeq] at h
      exact List.mem_cons_of_mem _ (ih h)

/-- Substituting one match with a dollar-free replacement strictly
decreases the number of dollar characters: the removed span
`$\x7bvar\x7d` contains at least its leading dollar. -/
theorem countD_subst {v pre var suffix rep : List Char}
    (hm : findMatch v = some (pre, var, suffix)) (hrep : countD rep = 0) :
    countD (pre ++ rep ++ suffix) < countD v := by
  have hdec := findMatch_decomp hm
  unfold countD at *
  rw [hdec]
  rw [List.count_append, List.count_append, List.count_append,
    List.count_cons_self]
  rw [List.count_cons_of_ne (by decide : ('$' : Char) ≠ '{'), List.count_append,
    List.count_cons_of_ne (by decide : ('$' : Char) ≠ '}')]
  omega

/-- With every substitutable value free of dollar characters, the loop
completes within `countD value` iterations. -/
theorem expandF_isSome_of_dollar_free
    (env : List Char → Option (List Char)) (ctx : List (List Char × List Char))
    (henv : ∀ k r, env k = some r → countD r = 0)
    (hctx : ∀ p ∈ ctx, countD p.2 = 0) :
    ∀ fuel value, countD value < fuel → (expandF env ctx fuel value).isSome := by
  intro fuel
  induction fuel with
  | zero => intro v h; omega
  | succ fuel ih =>
    intro v hv
    simp only [expandF]
    cases hm : findMatch v with
    | none => simp [hm]
    | some tr =>
      obtain ⟨pre, var, suffix⟩ := tr
      simp only [hm]
      cases hl : ctx.lookup var with
      | some rep =>
        simp only [hl]
        have hrep : countD rep = 0 := hctx (var, rep) (lookup_mem hl)
        exact ih (pre ++ rep ++ suffix) (by have := countD_subst hm hrep; omega)
      | none =>
        simp only [hl]
        cases he : env var with
        | some rep =>
          simp only [he]
          have hrep : countD rep = 0 := henv var rep he
          exact ih (pre ++ rep ++ suffix) (by have := countD_subst hm hrep; omega)
        | none => simp [he]

/-- C10, amended: variable resolution does terminate — returning the
expanded string or raising the unresolved-variable error — whenever every
value the resolver can substitute (each context binding and each
environment value) contains no dollar character, with the dollar count of
the input bounding the number of loop iterations; but it can loop forever
when a reference resolves, directly or through a chain, to a value that
still contains a reference (the counterexample above). -/
theorem expand_terminates_of_dollar_free
    (env : List Char → Option (List Char)) (ctx : List (List Char × List Char))
    (henv : ∀ k r, env k = some r → countD r = 0)
    (hctx : ∀ p ∈ ctx, countD p.2 = 0) (value : List Char) :
    (expandF env ctx (countD value + 1) value).isSome ∧ ExpandTerminates env ctx value :=
  have h := expandF_isSome_of_dollar_free env ctx henv hctx (countD value + 1) value
    (by omega)
  ⟨h, ⟨_, h⟩⟩

/-- Witness for `expand_terminates_of_dollar_free`: `"$\x7bA\x7d"` with
the dollar-free binding `A = "x"`. -/
theorem expand_terminates_of_dollar_free_witness :
    (expandF (fun _ => none) [(['A'], ['x'])] (countD selfRef + 1) selfRef).isSome ∧
    ExpandTerminates (fun _ => none) [(['A'], ['x'])] selfRef :=
  expand_terminates_of_dollar_free (fun _ => none) [(['A'], ['x'])]
    (fun _ _ h => by cases h) (by decide) selfRef

end Automata
